import Mathlib

/-!
Verification development for the book-generation pipeline
(`src/utils/extract_utils.py`, `src/classes/book_maker.py`,
`src/classes/book_formatter.py`).

Strings are modelled as `List Char`.  Python's `str.split`, `str.replace`,
`in`, slicing and `"sep".join` are modelled by executable functions below
(`pysplit`, `replaceOnce`, `listContains`, `List.take`/`List.drop`,
`List.intercalate`).  Regular-expression searches (`re.search`) are modelled
by explicit scanning functions that reproduce Python's leftmost-match,
greedy-with-backtracking semantics for the two concrete patterns used by the
code.  Character classes are modelled over ASCII (the inputs the program
manipulates).
-/

set_option maxRecDepth 100000

namespace BookMaker

/-- Python `\w` (ASCII range): letters, digits and underscore. -/
def isWordChar (c : Char) : Bool := c.isAlphanum || c = '_'

/-- Python `\s` (ASCII range). -/
def isSpaceChar (c : Char) : Bool :=
  c = ' ' || c = '\t' || c = '\n' || c = '\r' || c = '\x0b' || c = '\x0c'

/-- Python `\d` (ASCII range). -/
def isDigitChar (c : Char) : Bool := c.isDigit

/-- `startsWithL pat cs` : does `cs` start with `pat`?  (Python `str.startswith`.) -/
def startsWithL : List Char → List Char → Bool
  | [], _ => true
  | _ :: _, [] => false
  | p :: ps, c :: cs => p = c && startsWithL ps cs

/-- Python's `sub in s` substring test. -/
def listContains (pat : List Char) : List Char → Bool
  | [] => startsWithL pat []
  | c :: rest => startsWithL pat (c :: rest) || listContains pat rest

/-- Worker for `pysplit`: scans left to right, accumulating the current piece
(reversed); cuts at each leftmost, non-overlapping occurrence of `sep`.  The
`fuel` argument makes the recursion structural; every step consumes at least
one character and one unit of fuel, so with `cs.length ≤ fuel` the `0`
fallback is never reached for non-empty input. -/
def pysplitGo (sep : List Char) : Nat → List Char → List Char → List (List Char)
  | _, [], acc => [acc.reverse]
  | 0, cs, acc => [acc.reverse ++ cs]
  | fuel + 1, c :: rest, acc =>
    if startsWithL sep (c :: rest) then
      acc.reverse :: pysplitGo sep fuel (rest.drop (sep.length - 1)) []
    else
      pysplitGo sep fuel rest (c :: acc)

/-- Python `s.split(sep)` for a non-empty separator: leftmost,
non-overlapping splitting, keeping empty pieces. -/
def pysplit (sep : List Char) (cs : List Char) : List (List Char) :=
  pysplitGo sep cs.length cs []

/-- The blank-line separator `"\n\n"`. -/
def nl2 : List Char := ['\n', '\n']

/-- Python `sep.join(pieces)`. -/
def pyjoin (sep : List Char) : List (List Char) → List Char
  | [] => []
  | [p] => p
  | p :: q :: rest => p ++ sep ++ pyjoin sep (q :: rest)

/-- `extract_central_text` (src/utils/extract_utils.py, lines 16-57). -/
def extract_central_text (text : List Char)
    (include_start : Bool := false) (include_end : Bool := false) : List Char :=
  -- blocks = [b for b in text.split("\n\n") if b != "---"]
  let blocks := (pysplit nl2 text).filter (fun b => b ≠ "---".toList)
  match blocks with
  | [] => []
  | [b] => b
  | [b1, b2] => if include_start then pyjoin nl2 [b1, b2] else b2
  | _ =>
    let s := if include_start then 0 else 1
    let e := if include_end then blocks.length else blocks.length - 1
    pyjoin nl2 ((blocks.take e).drop s)

/-! ### `parse_numbered_list_item_from_line`

Python: `re.search(r"(\w*\s*)(\d+)(\.|:|\)) (.*)", line)`, returning group 4.
`re.search` tries start positions left to right; at each position `\w*` and
`\s*` are greedy with backtracking.  Backtracking collapses to:

* at a position, let `w` be the maximal `\w` run and `s` the maximal `\s` run
  after it; the first attempt places `\d+` after `w + s` characters;
* shorter `\s*` choices put a space where a digit is required, so they all
  fail; shorter `\w*` choices force an empty `\s*` (the next character is a
  word character), so the remaining attempts place `\d+` at offsets
  `w-1, w-2, …, 0`;
* `\d+` is greedy, and a shorter digit run leaves a digit where the separator
  is required, so only the maximal run can match.

`group(4) = (.*)` takes the rest of the line up to a newline. -/

/-- Match `\d+(\.|:|\)) (.*)` at the start of `cs`, returning group 4. -/
def tryTail (cs : List Char) : Option (List Char) :=
  let d := (cs.takeWhile isDigitChar).length
  if d = 0 then none
  else
    match cs.drop d with
    | sep :: sp :: rest =>
      if sp = ' ' ∧ (sep = '.' ∨ sep = ':' ∨ sep = ')') then
        some (rest.takeWhile (fun ch => ch ≠ '\n'))
      else none
    | _ => none

/-- Backtracking over shorter `\w*` choices: try `\d+…` at offsets
`a-1, a-2, …, 0` of `cs`, in that order. -/
def tryBack (cs : List Char) : Nat → Option (List Char)
  | 0 => none
  | a + 1 =>
    match tryTail (cs.drop a) with
    | some r => some r
    | none => tryBack cs a

/-- One attempt of the numbered-item regex anchored at the start of `cs`. -/
def matchNumberedAt (cs : List Char) : Option (List Char) :=
  let w := (cs.takeWhile isWordChar).length
  let s := ((cs.drop w).takeWhile isSpaceChar).length
  match tryTail (cs.drop (w + s)) with
  | some r => some r
  | none => tryBack cs w

/-- `re.search` for the numbered-item pattern: leftmost start position wins. -/
def searchNumbered : List Char → Option (List Char)
  | [] => none
  | c :: rest =>
    match matchNumberedAt (c :: rest) with
    | some r => some r
    | none => searchNumbered rest

/-- `parse_numbered_list_item_from_line` (extract_utils.py, lines 259-289). -/
def parse_numbered_list_item_from_line (line : List Char) : Option (List Char) :=
  searchNumbered line

/-! ### `parse_unordered_list_item_from_line`

Python: `re.search(r"(\s*)- (.*)", line)`, returning group 2.  A match
starting at position `i` exists iff the first non-space character at or after
`i` is `'-'` followed by `' '`; its group 2 is determined by that dash.  The
dash of the leftmost match is the first `"- "` occurrence in the line, so the
search reduces to scanning for the first `"- "`. -/
def searchBulleted : List Char → Option (List Char)
  | [] => none
  | c :: rest =>
    if c = '-' ∧ rest.head? = some ' ' then
      some (rest.tail.takeWhile (fun ch => ch ≠ '\n'))
    else
      searchBulleted rest

/-- `parse_unordered_list_item_from_line` (extract_utils.py, lines 292-317). -/
def parse_unordered_list_item_from_line (line : List Char) : Option (List Char) :=
  searchBulleted line

/-! ### Outline extractor (`extract_sections_from_toc` and helpers)

The `OrderedDict` of `{section: None | [subsection_or_None, …]}` is modelled
as an association list with Python dict-assignment semantics: assigning to an
existing key updates it in place, otherwise the pair is appended.  Values are
`Option (List (Option (List Char)))`: the paragraph strategy stores the raw
results of `parse_unordered_list_item_from_line` (which may be `None`), the
line strategy only stores present values. -/

/-- Value type of the section mapping. -/
abbrev Subsections := Option (List (Option (List Char)))

/-- The ordered section mapping. -/
abbrev SectionMap := List (List Char × Subsections)

/-- Python `key in dict`. -/
def containsKey (d : SectionMap) (k : List Char) : Bool :=
  d.any (fun kv => kv.1 = k)

/-- Python `dict[key] = value` on an ordered dict. -/
def odInsert (d : SectionMap) (k : List Char) (v : Subsections) : SectionMap :=
  if containsKey d k then
    d.map (fun kv => if kv.1 = k then (k, v) else kv)
  else
    d ++ [(k, v)]

/-- `[line for line in text.split("\n") if line]`. -/
def pylines (text : List Char) : List (List Char) :=
  (pysplit ['\n'] text).filter (fun l => l ≠ [])

/-- Python `xs if xs else None` on an optional list. -/
def normSubs (subs : Option (List (Option (List Char)))) : Subsections :=
  match subs with
  | some (x :: xs) => some (x :: xs)
  | _ => none

/-- `parse_one_section_to_subsections` (extract_utils.py, lines 221-256).
`lines[0]` on an empty line list is a Python `IndexError`, modelled as
`Except.error`.  The section falls back to the raw first line when the
numbered parse returns `None` *or* the empty string (Python truthiness). -/
def parse_one_section_to_subsections (text : List Char) :
    Except String (List Char × List (Option (List Char))) :=
  let lines := pylines text
  match lines with
  | [] => .error "IndexError: list index out of range"
  | l0 :: rest =>
    let sec :=
      match parse_numbered_list_item_from_line l0 with
      | some s => if s = [] then l0 else s
      | none => l0
    .ok (sec, rest.map parse_unordered_list_item_from_line)

/-- Fold of `extract_sections_subsections_by_paragraphs`' loop body. -/
def extractByParagraphsGo : List (List Char) → SectionMap → Except String SectionMap
  | [], d => .ok d
  | p :: rest, d =>
    match parse_one_section_to_subsections p with
    | .error e => .error e
    | .ok (sec, subs) =>
      extractByParagraphsGo rest (odInsert d sec (normSubs (some subs)))

/-- `extract_sections_subsections_by_paragraphs` (extract_utils.py,
lines 186-218). -/
def extract_sections_subsections_by_paragraphs (toc_text : List Char) :
    Except String SectionMap :=
  extractByParagraphsGo ((pysplit nl2 toc_text).filter (fun p => p ≠ [])) []

/-- The scanning loop of `extract_sections_subsections_by_line`
(extract_utils.py, lines 140-183).  `prev` is the previously examined
(non-empty) line, i.e. `lines[i-1]`; `i != 0` iff `prev` is present, and
`lines[i-1]` is always truthy because the lines were filtered non-empty. -/
def scanTocLines (d : SectionMap) (currSec : Option (List Char))
    (currSubs : Option (List (Option (List Char)))) (prev : Option (List Char)) :
    List (List Char) → Except String SectionMap
  | [] =>
    -- if curr_section is not None and curr_section not in dict: store it
    match currSec with
    | none => .ok d
    | some s => .ok (if containsKey d s then d else odInsert d s (normSubs currSubs))
  | line :: rest =>
    match parse_numbered_list_item_from_line line with
    | some sec =>
      let d2 :=
        match currSec with
        | some cs => odInsert d cs (normSubs currSubs)
        | none => d
      scanTocLines d2 (some sec) (some []) (some line) rest
    | none =>
      match parse_unordered_list_item_from_line line with
      | some sub =>
        match currSubs with
        | some subs => scanTocLines d currSec (some (subs ++ [some sub])) (some line) rest
        | none =>
          -- HACK branch: assume previous line was an un-numbered header
          match prev with
          | some p => scanTocLines d (some p) (some [some sub]) (some line) rest
          | none => .error "Subsection occurs without a section header!"
      | none => scanTocLines d currSec currSubs (some line) rest

/-- `extract_sections_subsections_by_line` (extract_utils.py, lines 122-183). -/
def extract_sections_subsections_by_line (toc_text : List Char) :
    Except String SectionMap :=
  scanTocLines [] none none none (pylines toc_text)

/-- `extract_sections_from_toc` (extract_utils.py, lines 98-119). -/
def extract_sections_from_toc (toc_text : List Char) : Except String SectionMap :=
  if 1 < (pysplit nl2 toc_text).length then
    extract_sections_subsections_by_paragraphs toc_text
  else
    extract_sections_subsections_by_line toc_text

/-! ### Document formatter (`book_formatter.py`) -/

/-- The `<code>` open tag. -/
def codeOpen : List Char := "<code>".toList

/-- The `</code>` close tag. -/
def codeClose : List Char := "</code>".toList

/-- Python `s.replace(pat, rep, 1)`: replace the leftmost occurrence of
`pat` (if any). -/
def replaceOnce (pat rep : List Char) : List Char → List Char
  | [] => if pat = [] then rep else []
  | c :: rest =>
    if startsWithL pat (c :: rest) then
      rep ++ (c :: rest).drop pat.length
    else
      c :: replaceOnce pat rep rest

/-- The tag-alternating replacement loop of `replace_with_code_tag`
(book_formatter.py, lines 380-390): `n` replacements of the leftmost
` ``` ` remaining, alternating open/close starting with open. -/
def replaceAlternating (text : List Char) : Nat → Bool → List Char
  | 0, _ => text
  | n + 1, openFlag =>
    let tag := if openFlag then codeOpen else codeClose
    replaceAlternating (replaceOnce "```".toList tag text) n (!openFlag)

/-- Number of non-overlapping occurrences of `pat` (Python
`len(re.findall(pat, text))` for a literal pattern). -/
def countOcc (pat text : List Char) : Nat :=
  (pysplit pat text).length - 1

/-- `replace_with_code_tag` (book_formatter.py, lines 358-390); the failed
`assert` on an odd marker count is modelled as `Except.error`. -/
def replace_with_code_tag (text : List Char) : Except String (List Char) :=
  let n := countOcc "```".toList text
  if n % 2 = 0 then
    .ok (replaceAlternating text n true)
  else
    .error "Number of code block identifiers (```) must be even!"

/-- `prepend_before_char` (book_formatter.py, lines 496-524).
`i` is the index of the first character differing from `char`; when the text
is non-empty and all `char`, the Python `for` loop leaves `i = len - 1`;
when the text is empty, `i` keeps its initial value `0`. -/
def prepend_before_char (text to_add : List Char) (char : Char) : List Char :=
  let i :=
    match text.findIdx? (fun c => c ≠ char) with
    | some n => n
    | none => if text = [] then 0 else text.length - 1
  text.take i ++ to_add ++ text.drop i

/-- `append_before_char` (book_formatter.py, lines 467-493).
The `while text[i-1] == char` loop strips the trailing run of `char`; when
the text is empty or entirely `char`, the loop runs into Python's negative
indexing and eventually raises `IndexError`, modelled as `Except.error`. -/
def append_before_char (text to_add : List Char) (char : Char) :
    Except String (List Char) :=
  if text.all (fun c => c = char) then
    .error "IndexError: string index out of range"
  else
    let k := (text.reverse.takeWhile (fun c => c = char)).length
    .ok (text.take (text.length - k) ++ to_add ++ text.drop (text.length - k))

/-- The paragraph-processing body of `wrap_paragraphs_in_par_tag`
(book_formatter.py, lines 412-459), for one paragraph.
`before_par_split[k]` accesses on too-short lists are Python `IndexError`s,
modelled as `Except.error`. -/
def wrapOneParagraph (par : List Char) : Except String (List Char) :=
  if listContains codeOpen par then
    let parts := (pysplit codeOpen par).filter (fun p => p ≠ [])
    if 2 < parts.length then
      .error "Unhandled Case: Two code blocks in the same paragraph!"
    else
      match parts with
      | [] => .error "IndexError: list index out of range"
      | [p0] =>
        -- only a code block: nothing before it
        let remaining := codeOpen ++ p0
        let afterParts := (pysplit codeClose remaining).filter (fun p => p ≠ [])
        match afterParts with
        | [a0, a1] => do
          let code := a0 ++ codeClose
          let afterCode0 := prepend_before_char a1 ("\n<p>".toList) '\n'
          let afterCode ← append_before_char afterCode0 ("</p>".toList) '\n'
          .ok (code ++ afterCode)
        | _ => .ok remaining
      | p0 :: p1 :: _ => do
        let remaining := codeOpen ++ p1
        let beforeCode0 := prepend_before_char p0 ("<p>".toList) '\n'
        let beforeCode1 ← append_before_char beforeCode0 ("</p>".toList) '\n'
        let beforeCode := beforeCode1 ++ ['\n']
        let afterParts := (pysplit codeClose remaining).filter (fun p => p ≠ [])
        match afterParts with
        | [a0, a1] => do
          let code := a0 ++ codeClose
          let afterCode0 := prepend_before_char a1 ("\n<p>".toList) '\n'
          let afterCode ← append_before_char afterCode0 ("</p>".toList) '\n'
          .ok (beforeCode ++ code ++ afterCode)
        | _ => .ok (beforeCode ++ remaining)
  else
    .ok ("<p>".toList ++ par ++ "</p>".toList)

/-- `Except`-valued `map` over a list. -/
def mapExcept (f : α → Except String β) : List α → Except String (List β)
  | [] => .ok []
  | x :: xs => do
    let y ← f x
    let ys ← mapExcept f xs
    .ok (y :: ys)

/-- `wrap_paragraphs_in_par_tag` (book_formatter.py, lines 393-464). -/
def wrap_paragraphs_in_par_tag (text : List Char) : Except String (List Char) := do
  let paragraphs := pysplit nl2 text
  let newParagraphs ← mapExcept wrapOneParagraph paragraphs
  .ok (pyjoin nl2 newParagraphs)

/-- Chapter-body construction from raw section text
(`prepare_chapter_content`, book_formatter.py, lines 287-291): code-tag
substitution followed by paragraph wrapping. -/
def chapterBody (text : List Char) : Except String (List Char) := do
  let t ← replace_with_code_tag text
  wrap_paragraphs_in_par_tag t

/-! ### Levenshtein distance (`Levenshtein.distance`)

The external `Levenshtein` library computes the standard unit-cost edit
distance (insertions, deletions, substitutions) by dynamic programming; we
model it by the usual row-by-row DP so that concrete instances evaluate. -/

/-- One inner DP step: given the character `x` of the left string, the
remaining characters of the right string paired against the tail of the
previous row, the diagonal entry `diag` (previous row, same column) and the
entry `lastOut` just computed to the left, produce the rest of the new row. -/
def levRowAux (x : Char) : List Char → Nat → List Nat → Nat → List Nat
  | [], _, _, _ => []
  | y :: ys, diag, rest, lastOut =>
    let above := rest.headD 0
    let cur := min (lastOut + 1) (min (above + 1) (diag + (if x = y then 0 else 1)))
    cur :: levRowAux x ys above rest.tail cur

/-- New DP row for character `x` against `ys`, from the previous row. -/
def levNewRow (x : Char) (ys : List Char) (row : List Nat) : List Nat :=
  let out0 := row.headD 0 + 1
  out0 :: levRowAux x ys (row.headD 0) row.tail out0

/-- `levenshtein_distance xs ys`: unit-cost edit distance. -/
def levenshtein_distance (xs ys : List Char) : Nat :=
  ((xs.foldl (fun row x => levNewRow x ys row) (List.range (ys.length + 1))).getLast?).getD 0

/-! ### difflib `SequenceMatcher(None, a, b).find_longest_match(0, len(a), 0, len(b))`

Faithful model of CPython's difflib with `isjunk=None` and the default
`autojunk=True`:

* `b2j` maps each character to its (ascending) positions in `b`; when
  `len(b) >= 200`, characters occurring more than `len(b) // 100 + 1` times
  are "popular" and are removed from `b2j` (autojunk);
* the DP pass keeps `j2len[j]` = length of the longest matching run ending at
  the current `a`-index and `b`-index `j`, and records the first strictly
  longer run found (scan order: `i` ascending, then `j` ascending);
* since `isjunk is None`, the junk set `bjunk` is empty: the first two
  extension loops extend the found block over any equal characters and the
  two junk-only extension loops never run. -/

/-- `self.bjunk.__contains__` with `isjunk=None`: the junk set is empty. -/
def isbjunk : Char → Bool := fun _ => false

/-- Is `c` removed from `b2j` by the autojunk heuristic? -/
def bPopular (b : List Char) (c : Char) : Bool :=
  decide (200 ≤ b.length) && decide (b.length / 100 + 1 < b.count c)

/-- `b2j.get(c, [])`: ascending positions of `c` in `b`, minus popular. -/
def b2jList (b : List Char) (c : Char) : List Nat :=
  if bPopular b c then []
  else (List.range b.length).filter (fun j => b[j]? = some c)

/-- The DP pass of `find_longest_match` over the remaining characters of `a`;
`i` is the index of the first of them in `a`, `j2len` is the previous row
(total function, 0 where the dict has no entry), `best` is
`(besti, bestj, bestsize)`. -/
def flmLoop (b : List Char) : List Char → Nat → (Nat → Nat) → Nat × Nat × Nat → Nat × Nat × Nat
  | [], _, _, best => best
  | c :: rest, i, j2len, best =>
    let js := b2jList b c
    let nj : Nat → Nat := fun j =>
      if j ∈ js then (if j = 0 then 1 else j2len (j - 1) + 1) else 0
    let best2 := js.foldl (fun bst j =>
      let k := nj j
      if bst.2.2 < k then (i + 1 - k, j + 1 - k, k) else bst) best
    flmLoop b rest (i + 1) nj best2

/-- Backward extension loop
(`while besti > alo and bestj > blo and ok(b[bestj-1]) and a[besti-1] == b[bestj-1]`),
recursing on `besti`.  `ok` is `not isbjunk` for the first pass and `isbjunk`
for the junk pass. -/
def extLeft (a b : List Char) (ok : Char → Bool) : Nat → Nat → Nat → Nat × Nat × Nat
  | 0, j, k => (0, j, k)
  | i + 1, 0, k => (i + 1, 0, k)
  | i + 1, j + 1, k =>
    match a[i]?, b[j]? with
    | some x, some y =>
      if ok y ∧ x = y then extLeft a b ok i j (k + 1) else (i + 1, j + 1, k)
    | _, _ => (i + 1, j + 1, k)

/-- Forward extension loop
(`while besti+bestsize < ahi and bestj+bestsize < bhi and ok(b[bestj+bestsize]) and …`),
with enough fuel to reach the end of `a`. -/
def extRight (a b : List Char) (ok : Char → Bool) (i j : Nat) : Nat → Nat → Nat
  | 0, k => k
  | fuel + 1, k =>
    match a[i + k]?, b[j + k]? with
    | some x, some y =>
      if ok y ∧ x = y then extRight a b ok i j fuel (k + 1) else k
    | _, _ => k

/-- `find_longest_match(0, len(a), 0, len(b))`, returning
`(match.a, match.b, match.size)`. -/
def find_longest_match (a b : List Char) : Nat × Nat × Nat :=
  let dp := flmLoop b a 0 (fun _ => 0) (0, 0, 0)
  let e1 := extLeft a b (fun c => !isbjunk c) dp.1 dp.2.1 dp.2.2
  let k2 := extRight a b (fun c => !isbjunk c) e1.1 e1.2.1 a.length e1.2.2
  let e3 := extLeft a b isbjunk e1.1 e1.2.1 k2
  let k4 := extRight a b isbjunk e3.1 e3.2.1 a.length e3.2.2
  (e3.1, e3.2.1, k4)

/-- One merge step of `_iter_check_if_finished` (book_maker.py,
lines 497-500): `text[:match.a] + new_text[match.b:]`. -/
def mergeStep (text new_text : List Char) : List Char :=
  let m := find_longest_match text new_text
  text.take m.1 ++ new_text.drop m.2.1

/-- `_check_if_finished` (book_maker.py, lines 508-554), as a pure function
of its argument `text` and the chatbot's response `text_output`.  The float
comparison `num_edits / max(len, len) < 0.05` is modelled exactly on the
rationals as `20 * num_edits < max(len, len)`. -/
def check_if_finished (text text_output : List Char) : Option (List Char) :=
  if startsWithL "Done.".toList text_output then
    none
  else if text ≠ [] ∧
      20 * levenshtein_distance text text_output < max text.length text_output.length then
    none
  else
    some text_output

/-- The `while True` loop of `_iter_check_if_finished` (book_maker.py,
lines 487-505), driven by the list of successive chatbot responses; `text` is
the accumulated text and `last` the Python variable `last_text`.  `last` is
updated to the *extracted* fragment (line 503 runs after the rebinding on
line 495). -/
def iterGo : List (List Char) → List Char → List Char → List Char
  | [], text, _ => text
  | out :: rest, text, last =>
    match check_if_finished last out with
    | none => text
    | some raw =>
      let newText := extract_central_text raw
      iterGo rest (mergeStep text newText) newText

/-- `_iter_check_if_finished` (book_maker.py, lines 467-505) with the chat
collaborator replaced by the list of responses it would return. -/
def iter_check_if_finished (responses : List (List Char)) (text : Option (List Char)) :
    List Char :=
  let t := match text with | some s => s | none => []   -- text if text else ""
  iterGo responses t t

/-! ### `BookMaker.save` (book_maker.py, lines 110-136) -/

/-- The five generation-progress flags (`self.progress`). -/
structure Progress where
  title : Bool
  toc : Bool
  sections : Bool
  description : Bool
  keywords : Bool

/-- The `BookMaker` state that `save` reads: the progress flags and the book
dictionary (opaque to `save`, which only serializes it). -/
structure BookMakerState (β : Type) where
  progress : Progress
  book : β

/-- Python `all(self.progress.values())`. -/
def allProgress (p : Progress) : Bool :=
  p.title && p.toc && p.sections && p.description && p.keywords

/-- `save`: returns the (unmodified) state, the written file content (`none`
when nothing is written) and the Python return value (`some false` for the
early `return False`, `none` for the implicit `return None` after writing). -/
def save (st : BookMakerState β) : BookMakerState β × Option β × Option Bool :=
  if allProgress st.progress then
    (st, some st.book, none)
  else
    (st, none, some false)

/-! ### Specification-side definitions

These definitions are written from the specification's (and claims') wording,
for comparison against the code-derived definitions above. -/

/-- Does `cs` contain two consecutive newlines (a blank-line break)? -/
def noBlank : List Char → Bool
  | [] => true
  | [_] => true
  | c1 :: c2 :: rest => !(c1 = '\n' && c2 = '\n') && noBlank (c2 :: rest)

/-- A paragraph shape under which blank-line joining and splitting invert:
no internal blank-line break and no trailing newline. -/
def goodPar (p : List Char) : Prop :=
  noBlank p = true ∧ p.getLast? ≠ some '\n'

/-- Spec side, claim C8: the line consists of optional leading whitespace,
then the literal `"- "`, then the remainder. -/
def claimBulletShape (cs : List Char) : Bool :=
  startsWithL "- ".toList (cs.dropWhile isSpaceChar)

/-- Spec side, claim C7: `\d+(\.|:|\)) ` anchored at the start of `cs`, with
the digits denoting a positive integer. -/
def claimNumberedCore (cs : List Char) : Bool :=
  let ds := cs.takeWhile isDigitChar
  !(ds.isEmpty) && ds.any (fun c => c ≠ '0') &&
    (match cs.drop ds.length with
     | sep :: ' ' :: _ => sep = '.' || sep = ':' || sep = ')'
     | _ => false)

/-- Spec side, claim C7: the whole line is an optional single leading word
plus whitespace, then a positive integer, a separator and a single space. -/
def claimNumberedShape (cs : List Char) : Bool :=
  (List.range (cs.length + 1)).any (fun a =>
    let pre := cs.take a
    let preOk := pre.isEmpty ||
      (let w := pre.takeWhile isWordChar
       decide (1 ≤ w.length) && decide (w.length < pre.length) &&
       (pre.drop w.length).all isSpaceChar)
    preOk && claimNumberedCore (cs.drop a))

/-- Spec side, claim C4: the case analysis of §4.1 on the kept paragraphs. -/
def centralSpec (qs : List (List Char)) (include_start include_end : Bool) : List Char :=
  match qs with
  | [] => []
  | [q] => q
  | [q1, q2] => if include_start then q1 ++ nl2 ++ q2 else q2
  | _ =>
    pyjoin nl2 ((if include_end then qs else qs.dropLast).drop (if include_start then 0 else 1))

/-- Spec side, claim C5: a paragraph's section header — the first line's
numbered-item remainder, falling back to the raw line. -/
def parHeader (p : List Char) : List Char :=
  match pylines p with
  | [] => []
  | l0 :: _ =>
    match parse_numbered_list_item_from_line l0 with
    | some s => if s = [] then l0 else s
    | none => l0

/-- Spec side, claim C5 (amended): a paragraph's subsection value — `none`
when there are no lines after the first, otherwise the per-line results of
the bulleted-item parse (each possibly `none`), normalized to `none` when
empty. -/
def parValue (p : List Char) : Subsections :=
  match pylines p with
  | [] => none
  | _ :: rest => normSubs (some (rest.map parse_unordered_list_item_from_line))

/-- `a[i:i+k]` and `b[j:j+k]` are equal, in range: a common contiguous
substring occurrence of length `k`. -/
def isCommonBlock (a b : List Char) (i j k : Nat) : Prop :=
  i + k ≤ a.length ∧ j + k ≤ b.length ∧ (a.drop i).take k = (b.drop j).take k

/-- Executable version of `isCommonBlock`. -/
def commonBlockB (a b : List Char) (i j k : Nat) : Bool :=
  decide (i + k ≤ a.length) && decide (j + k ≤ b.length) &&
    ((a.drop i).take k == (b.drop j).take k)

/-- Executable check: `a` and `b` have no common contiguous substring longer
than `n`. -/
def noCommonRunOver (a b : List Char) (n : Nat) : Bool :=
  (List.range a.length).all (fun i =>
    decide (a.length < i + (n + 1)) || !(listContains ((a.drop i).take (n + 1)) b))

/-- Executable check: `merged` differs from `a.take i ++ b.drop j` for every
common-block occurrence `(i, j)` of length `n`. -/
def mergeMismatchAll (a b merged : List Char) (n : Nat) : Bool :=
  (List.range (a.length + 1)).all (fun i =>
    (List.range (b.length + 1)).all (fun j =>
      !(commonBlockB a b i j n) || decide (merged ≠ a.take i ++ b.drop j)))

/-- `runLen a b i j`: length of the common run ending at `a`-index `i - 1`
and `b`-index `j` (difflib's `j2len[j]` after processing `i` characters). -/
def runLen (a b : List Char) : Nat → Nat → Nat
  | 0, _ => 0
  | i + 1, j =>
    match a[i]?, b[j]? with
    | some x, some y =>
      if x = y then
        match j with
        | 0 => 1
        | j' + 1 => runLen a b i j' + 1
      else 0
    | _, _ => 0

/-! ### Concrete inputs for the autojunk counterexample

`c1B` has length 200, so difflib's autojunk heuristic applies to it:
`'x'` occurs 4 > 200 / 100 + 1 = 3 times and is excluded from matching,
while every other character occurs at most 3 times.  The longest common
contiguous substring of `c1A = "abxxxx"` and `c1B` is `"xxxx"`, at index 2 of
`c1A` and index 0 of `c1B`; the `"ab"` at index 100 of `c1B` is what the
autojunked matcher finds instead. -/

/-- 32 distinct filler characters. -/
def c1Fill1 : List Char := "ABCDEFGHIJKLMNOPQRSTUVWXYZ012345".toList

/-- 32 more distinct filler characters (no `'a'`, `'b'`, `'x'`). -/
def c1Fill2 : List Char := "cdefghijklmnopqrstuvwyz6789,.;:?".toList

/-- The 200-character fragment: `"xxxx"`, 96 filler characters, `"ab"` at
index 100, 98 more filler characters. -/
def c1B : List Char :=
  "xxxx".toList ++ c1Fill1.flatMap (fun c => List.replicate 3 c) ++ "ab".toList ++
    c1Fill2.flatMap (fun c => List.replicate 3 c) ++ ['(', '(']

/-- The short accumulated text. -/
def c1A : List Char := "abxxxx".toList

/-- First raw chatbot response for the C2 counterexample: a lead-in
paragraph, the central text `"CORE"`, and a lead-out paragraph. -/
def c2r1 : List Char := "preamble\n\nCORE\n\npostamble".toList

/-- Second raw chatbot response: near-verbatim repetition of the first
(edit distance 1, normalized 1/25 < 0.05). -/
def c2r2 : List Char := "preamble\n\nCORF\n\npostamble".toList

/-! ## Theorems -/

/-- C9: for every book-model state, `save` writes a file only when all five
generation-progress flags (title, toc, sections, description, keywords) are
true; if any flag is false, `save` returns `False`, writes nothing and leaves
the state unchanged. -/
theorem c9_save_requires_all_flags (β : Type) (st : BookMakerState β) :
    ((save st).2.1.isSome → allProgress st.progress = true) ∧
    (allProgress st.progress = false → save st = (st, none, some false)) := by
  constructor
  · intro h
    cases hq : allProgress st.progress with
    | true => rfl
    | false => simp [save, hq] at h
  · intro hq
    simp [save, hq]

/-- Witness for C9 at a concrete state with the `sections` flag unset. -/
theorem c9_save_requires_all_flags_witness :
    save (BookMakerState.mk (Progress.mk true true false true true) (0 : Nat)) =
      (BookMakerState.mk (Progress.mk true true false true true) 0, none, some false) :=
  (c9_save_requires_all_flags Nat _).2 rfl

/-- C3 (code bug): a paragraph that *begins* with a code span and contains a
second one is not rejected: the leading empty piece of
`paragraph.split("<code>")` is filtered out, the length check sees only two
pieces, and the paragraph is silently mangled (first conjunct), while the
same two spans preceded by text do raise (second conjunct). -/
theorem c3_two_code_spans_not_always_fatal :
    chapterBody "```one``` ```two```".toList =
      Except.ok "<p>one</code> </p>\n<code>two</code>".toList ∧
    chapterBody "x```a``` y```b```".toList =
      Except.error "Unhandled Case: Two code blocks in the same paragraph!" := by
  constructor
  · rfl
  · rfl

/-- C5 counterexample: on the ToC `"1. A\n\nB\nplain"` (which has a
blank-line break) the paragraph strategy maps `"B"` to the list `[none]`:
the non-bulleted line `"plain"` contributes a null placeholder, which the
claim says never happens. -/
theorem c5_counterexample :
    extract_sections_from_toc "1. A\n\nB\nplain".toList =
      Except.ok [("A".toList, none), ("B".toList, some [none])] := by
  rfl

/-- C7 counterexample: `"a b 1. x"` does not have the claim's well-formed
shape (two words precede the number), so per the claim the parse should
return nothing; but `re.search` matches the pattern anywhere in the line and
the code returns `"x"`. -/
theorem c7_counterexample :
    claimNumberedShape "a b 1. x".toList = false ∧
    parse_numbered_list_item_from_line "a b 1. x".toList = some "x".toList := by
  constructor
  · rfl
  · rfl

/-- C8 counterexample: `"foo - bar"` does not consist of optional whitespace
followed by `"- "`, so per the claim the parse should return nothing; but
`re.search` finds the `"- "` anywhere in the line and the code returns
`"bar"`. -/
theorem c8_counterexample :
    claimBulletShape "foo - bar".toList = false ∧
    parse_unordered_list_item_from_line "foo - bar".toList = some "bar".toList := by
  constructor
  · rfl
  · rfl

/-- C2 counterexample: on the response sequence `[c2r1, c2r2]` started from
empty text, the claim's condition holds at the second iteration — the edit
distance between the previous *raw* fragment `c2r1` and the new raw fragment
`c2r2` is 1, normalized 1/25 < 0.05 (first conjunct) — so per the claim the
loop should stop without appending, returning the text accumulated after the
first iteration, `"CORE"` (second conjunct).  The code instead compares the
new raw fragment against the previous *extracted* fragment `"CORE"`
(`last_text` is rebound to the extracted text on line 495 before line 503
stores it), finds it dissimilar, and appends: the loop returns `"CORF"`
(third conjunct). -/
theorem c2_counterexample :
    20 * levenshtein_distance c2r1 c2r2 < max c2r1.length c2r2.length ∧
    iter_check_if_finished [c2r1] none = "CORE".toList ∧
    iter_check_if_finished [c2r1, c2r2] none = "CORF".toList ∧
    "CORF".toList ≠ "CORE".toList := by
  refine ⟨by decide, by decide, by decide, by decide⟩

/-- C1 counterexample: with the 200-character fragment `c1B`, autojunk
excludes `'x'` from matching.  The longest common contiguous substring of
`c1A = "abxxxx"` and `c1B` is `"xxxx"`, of length 4 (first conjunct: nothing
longer is common; second conjunct: it occurs at indices 2 and 0).  The claim
says the merge step returns `accumulated[:i] + fragment[j:]` for the
occurrence `(i, j)` of that longest common substring, but the code's merge
returns `c1B.drop 100` (third conjunct), which differs from
`c1A.take i ++ c1B.drop j` for *every* length-4 common occurrence `(i, j)`
(fourth conjunct). -/
theorem c1_counterexample :
    noCommonRunOver c1A c1B 4 = true ∧
    commonBlockB c1A c1B 2 0 4 = true ∧
    mergeStep c1A c1B = c1B.drop 100 ∧
    mergeMismatchAll c1A c1B (c1B.drop 100) 4 = true := by
  refine ⟨by decide, by decide, by decide, by decide⟩

/-! ### Semantics of the executable common-substring checks -/

theorem commonBlockB_iff (a b : List Char) (i j k : Nat) :
    commonBlockB a b i j k = true ↔ isCommonBlock a b i j k := by
  simp [commonBlockB, isCommonBlock, and_assoc]

theorem isCommonBlock_mono {a b : List Char} {i j k m : Nat}
    (h : isCommonBlock a b i j k) (hm : m ≤ k) : isCommonBlock a b i j m := by
  obtain ⟨h1, h2, h3⟩ := h
  refine ⟨by omega, by omega, ?_⟩
  have ha : (a.drop i).take m = ((a.drop i).take k).take m := by
    rw [List.take_take, min_eq_left hm]
  have hb : (b.drop j).take m = ((b.drop j).take k).take m := by
    rw [List.take_take, min_eq_left hm]
  rw [ha, h3, hb]

theorem startsWithL_take (b : List Char) (m : Nat) :
    startsWithL (b.take m) b = true := by
  induction b generalizing m with
  | nil => simp [startsWithL]
  | cons c bs ih =>
    cases m with
    | zero => simp [startsWithL]
    | succ m => simp [startsWithL, ih]

theorem listContains_take_drop (b : List Char) (j m : Nat) :
    listContains ((b.drop j).take m) b = true := by
  induction b generalizing j with
  | nil => simp [listContains, startsWithL]
  | cons c bs ih =>
    cases j with
    | zero => simp [listContains, startsWithL_take]
    | succ j => simp [listContains, ih j]

/-- Meaning of `noCommonRunOver`: no common contiguous substring is longer
than `n`. -/
theorem noCommonRunOver_spec {a b : List Char} {n : Nat}
    (h : noCommonRunOver a b n = true) :
    ∀ i j k, isCommonBlock a b i j k → k ≤ n := by
  intro i j k hb
  by_contra hk
  push_neg at hk
  have hsub : isCommonBlock a b i j (n + 1) := isCommonBlock_mono hb (by omega)
  obtain ⟨h1, h2, h3⟩ := hsub
  simp only [noCommonRunOver, List.all_eq_true, List.mem_range] at h
  have hi : i < a.length := by omega
  have hcase := h i hi
  rw [h3] at hcase
  simp [listContains_take_drop, decide_eq_true_eq] at hcase
  omega

/-- Meaning of `mergeMismatchAll`: `merged` differs from the claim's merge
result for every length-`n` common occurrence. -/
theorem mergeMismatchAll_spec {a b merged : List Char} {n : Nat}
    (h : mergeMismatchAll a b merged n = true) :
    ∀ i j, isCommonBlock a b i j n → merged ≠ a.take i ++ b.drop j := by
  intro i j hb
  have hi : i < a.length + 1 := by obtain ⟨h1, _, _⟩ := hb; omega
  have hj : j < b.length + 1 := by obtain ⟨_, h2, _⟩ := hb; omega
  simp only [mergeMismatchAll, List.all_eq_true, List.mem_range] at h
  have hcase := h i hi j hj
  rw [Bool.or_eq_true, Bool.not_eq_true', decide_eq_true_eq] at hcase
  cases hcase with
  | inl hc => exact absurd ((commonBlockB_iff a b i j n).mpr hb) (by simp [hc])
  | inr hc => exact hc

/-- A value read by `l[n]?` is a member of `l`. -/
theorem mem_of_some_getElem {l : List Char} {n : Nat} {a : Char}
    (h : l[n]? = some a) : a ∈ l := by
  have hn : n < l.length := by
    rw [List.getElem?_eq_some] at h
    exact h.choose
  rw [List.getElem?_eq_getElem hn] at h
  have hm := List.getElem_mem hn
  rwa [Option.some_inj.mp h] at hm

/-- C8 (amended): `parse_bulleted_item` searches for the pattern anywhere in
the line (Python `re.search`), so it returns the remainder (up to a newline)
after the *first* occurrence of `"- "` — in particular after optional leading
whitespace, as the claim states — and returns nothing exactly when the line
contains no `"- "` at all. -/
theorem c8_parse_bulleted_item :
    (∀ pre rest : List Char, listContains ['-', ' '] pre = false →
      parse_unordered_list_item_from_line (pre ++ '-' :: ' ' :: rest) =
        some (rest.takeWhile (fun ch => ch ≠ '\n'))) ∧
    (∀ cs : List Char, listContains ['-', ' '] cs = false →
      parse_unordered_list_item_from_line cs = none) := by
  constructor
  · intro pre rest h
    induction pre with
    | nil => simp [parse_unordered_list_item_from_line, searchBulleted]
    | cons c pre' ih =>
      rw [listContains, Bool.or_eq_false_iff] at h
      obtain ⟨hs, hrest⟩ := h
      by_cases hc : c = '-' ∧ (pre' ++ '-' :: ' ' :: rest).head? = some ' '
      · exfalso
        obtain ⟨hc1, hc2⟩ := hc
        cases pre' with
        | nil => simp at hc2
        | cons p ps =>
          simp at hc2
          subst hc1 hc2
          simp [startsWithL] at hs
      · rw [List.cons_append, parse_unordered_list_item_from_line, searchBulleted,
          if_neg hc]
        exact ih hrest
  · intro cs h
    induction cs with
    | nil => rfl
    | cons c rest ih =>
      rw [listContains, Bool.or_eq_false_iff] at h
      obtain ⟨hs, hrest⟩ := h
      by_cases hc : c = '-' ∧ rest.head? = some ' '
      · exfalso
        obtain ⟨hc1, hc2⟩ := hc
        cases rest with
        | nil => simp at hc2
        | cons p ps =>
          simp at hc2
          subst hc1 hc2
          simp [startsWithL] at hs
      · rw [parse_unordered_list_item_from_line, searchBulleted, if_neg hc]
        exact ih hrest

/-- Witness for C8 at a line with leading whitespace and at a plain line. -/
theorem c8_parse_bulleted_item_witness :
    parse_unordered_list_item_from_line ("  ".toList ++ '-' :: ' ' :: "item".toList) =
      some "item".toList ∧
    parse_unordered_list_item_from_line "plain".toList = none := by
  constructor
  · exact (c8_parse_bulleted_item.1 "  ".toList "item".toList (by decide)).trans (by decide)
  · exact c8_parse_bulleted_item.2 "plain".toList (by decide)

/-! ### Character-class facts and `takeWhile` helpers -/

theorem space_not_digit {c : Char} (h : isSpaceChar c = true) : isDigitChar c = false := by
  simp only [isSpaceChar, Bool.or_eq_true, decide_eq_true_eq, or_assoc] at h
  rcases h with rfl | rfl | rfl | rfl | rfl | rfl <;> decide

theorem digit_not_space {c : Char} (h : isDigitChar c = true) : isSpaceChar c = false := by
  cases hs : isSpaceChar c
  · rfl
  · rw [space_not_digit hs] at h
    cases h

theorem space_not_word {c : Char} (h : isSpaceChar c = true) : isWordChar c = false := by
  simp only [isSpaceChar, Bool.or_eq_true, decide_eq_true_eq, or_assoc] at h
  rcases h with rfl | rfl | rfl | rfl | rfl | rfl <;> decide

theorem digit_word {c : Char} (h : isDigitChar c = true) : isWordChar c = true := by
  simp only [isDigitChar] at h
  simp [isWordChar, Char.isAlphanum, h]

theorem sep_classes {sep : Char} (h : sep = '.' ∨ sep = ':' ∨ sep = ')') :
    isWordChar sep = false ∧ isDigitChar sep = false ∧ isSpaceChar sep = false := by
  rcases h with rfl | rfl | rfl <;> exact ⟨by decide, by decide, by decide⟩

theorem takeWhile_all_stop (P : Char → Bool) (u : List Char) (c : Char) (t : List Char)
    (hu : u.all P = true) (hc : P c = false) : (u ++ c :: t).takeWhile P = u := by
  induction u with
  | nil => simp [List.takeWhile_cons, hc]
  | cons x xs ih =>
    rw [List.all_cons, Bool.and_eq_true] at hu
    simp [List.takeWhile_cons, hu.1, ih hu.2]

theorem takeWhile_all_self (P : Char → Bool) (u : List Char) (hu : u.all P = true) :
    u.takeWhile P = u := by
  induction u with
  | nil => rfl
  | cons x xs ih =>
    rw [List.all_cons, Bool.and_eq_true] at hu
    simp [List.takeWhile_cons, hu.1, ih hu.2]

theorem takeWhile_ne_nl_self (text : List Char) (h : ∀ c ∈ text, c ≠ '\n') :
    text.takeWhile (fun ch => ch ≠ '\n') = text := by
  induction text with
  | nil => rfl
  | cons x xs ih =>
    have hx : x ≠ '\n' := h x (by simp)
    have ih2 := ih (fun c hc => h c (List.mem_cons_of_mem _ hc))
    simp [List.takeWhile_cons, hx, ih2]
    intro c hc
    exact h c (List.mem_cons_of_mem _ hc)

theorem take_takeWhile_length (P : Char → Bool) (u : List Char) :
    u.take ((u.takeWhile P).length) = u.takeWhile P := by
  induction u with
  | nil => rfl
  | cons x xs ih =>
    by_cases hx : P x
    · simp [List.takeWhile_cons, hx, ih]
    · simp [List.takeWhile_cons, hx]

theorem takeWhile_append_drop (P : Char → Bool) (u : List Char) :
    u = u.takeWhile P ++ u.drop ((u.takeWhile P).length) := by
  conv_lhs => rw [← List.take_append_drop ((u.takeWhile P).length) u]
  rw [take_takeWhile_length]

theorem all_takeWhile (P : Char → Bool) (u : List Char) :
    (u.takeWhile P).all P = true := by
  induction u with
  | nil => rfl
  | cons x xs ih =>
    by_cases hx : P x
    · simp [List.takeWhile_cons, hx, ih]
    · simp [List.takeWhile_cons, hx]

/-! ### C7: soundness of the numbered-item search -/

theorem tryTail_sound {cs r : List Char} (h : tryTail cs = some r) :
    ∃ ds rest : List Char, ∃ sep : Char,
      cs = ds ++ sep :: ' ' :: rest ∧ ds ≠ [] ∧ ds.all isDigitChar = true ∧
      (sep = '.' ∨ sep = ':' ∨ sep = ')') ∧
      r = rest.takeWhile (fun ch => ch ≠ '\n') := by
  simp only [tryTail] at h
  split at h
  · cases h
  · rename_i hd
    split at h
    · rename_i sep sp rest hdrop
      split at h
      · rename_i hcond
        obtain ⟨hsp, hsep⟩ := hcond
        subst hsp
        injection h with h
        refine ⟨cs.takeWhile isDigitChar, rest, sep, ?_, ?_, all_takeWhile _ _, hsep, h.symm⟩
        · conv_lhs => rw [takeWhile_append_drop isDigitChar cs]
          rw [hdrop]
        · intro hnil
          rw [hnil] at hd
          exact hd rfl
      · cases h
    · cases h

theorem tryBack_sound {cs r : List Char} :
    ∀ n, tryBack cs n = some r → ∃ a, tryTail (cs.drop a) = some r := by
  intro n
  induction n with
  | zero => intro h; cases h
  | succ a ih =>
    intro h
    rw [tryBack] at h
    cases ht : tryTail (cs.drop a) with
    | some r' => rw [ht] at h; exact ⟨a, ht.trans h⟩
    | none => rw [ht] at h; exact ih h

theorem matchNumberedAt_sound {cs r : List Char} (h : matchNumberedAt cs = some r) :
    ∃ a, tryTail (cs.drop a) = some r := by
  rw [matchNumberedAt] at h
  cases ht : tryTail (cs.drop ((cs.takeWhile isWordChar).length +
      ((cs.drop ((cs.takeWhile isWordChar).length)).takeWhile isSpaceChar).length)) with
  | some r' =>
    rw [ht] at h
    exact ⟨_, ht.trans h⟩
  | none =>
    rw [ht] at h
    exact tryBack_sound _ h

theorem searchNumbered_head {cs r : List Char} (hne : cs ≠ [])
    (h : matchNumberedAt cs = some r) : searchNumbered cs = some r := by
  cases cs with
  | nil => exact absurd rfl hne
  | cons c rest => rw [searchNumbered, h]

/-- `tryTail` succeeds at the start of a digit run followed by a separator
and a space. -/
theorem tryTail_digits (ds text : List Char) (sep : Char) (hds : ds ≠ [])
    (hall : ds.all isDigitChar = true) (hsep : sep = '.' ∨ sep = ':' ∨ sep = ')') :
    tryTail (ds ++ sep :: ' ' :: text) = some (text.takeWhile (fun ch => ch ≠ '\n')) := by
  have hsepd : isDigitChar sep = false := (sep_classes hsep).2.1
  have htw : (ds ++ sep :: ' ' :: text).takeWhile isDigitChar = ds :=
    takeWhile_all_stop _ _ _ _ hall hsepd
  have hlen : ds.length ≠ 0 := by
    intro h0
    exact hds (List.eq_nil_of_length_eq_zero h0)
  simp only [tryTail, htw, hlen, if_false, List.drop_left]
  simp [hsep]

/-- The numbered-item attempt at position 0, case with non-empty whitespace
between the leading word and the digits: the first (fully greedy) attempt
succeeds. -/
theorem matchNumberedAt_space (w sp' ds text : List Char) (s0 sep : Char)
    (hw : w.all isWordChar = true) (hs0 : isSpaceChar s0 = true)
    (hsp : sp'.all isSpaceChar = true) (hds : ds ≠ [])
    (hall : ds.all isDigitChar = true) (hsep : sep = '.' ∨ sep = ':' ∨ sep = ')') :
    matchNumberedAt (w ++ ((s0 :: sp') ++ (ds ++ sep :: ' ' :: text))) =
      some (text.takeWhile (fun ch => ch ≠ '\n')) := by
  obtain ⟨d0, dtl, rfl⟩ : ∃ d0 dtl, ds = d0 :: dtl := by
    cases ds with
    | nil => exact absurd rfl hds
    | cons d0 dtl => exact ⟨d0, dtl, rfl⟩
  have hd0 : isDigitChar d0 = true := by
    rw [List.all_eq_true] at hall
    exact hall d0 (by simp)
  have h1 : (w ++ ((s0 :: sp') ++ ((d0 :: dtl) ++ sep :: ' ' :: text))).takeWhile
      isWordChar = w := by
    show (w ++ s0 :: (sp' ++ ((d0 :: dtl) ++ sep :: ' ' :: text))).takeWhile
      isWordChar = w
    exact takeWhile_all_stop isWordChar w s0 _ hw (space_not_word hs0)
  have h2 : (w ++ ((s0 :: sp') ++ ((d0 :: dtl) ++ sep :: ' ' :: text))).drop w.length =
      (s0 :: sp') ++ ((d0 :: dtl) ++ sep :: ' ' :: text) :=
    List.drop_left w ((s0 :: sp') ++ ((d0 :: dtl) ++ sep :: ' ' :: text))
  have h3 : ((s0 :: sp') ++ ((d0 :: dtl) ++ sep :: ' ' :: text)).takeWhile isSpaceChar =
      s0 :: sp' := by
    show (s0 :: sp' ++ d0 :: (dtl ++ sep :: ' ' :: text)).takeWhile isSpaceChar =
      s0 :: sp'
    exact takeWhile_all_stop isSpaceChar (s0 :: sp') d0 _ (by simp [hs0, hsp])
      (digit_not_space hd0)
  have h4 : (w ++ ((s0 :: sp') ++ ((d0 :: dtl) ++ sep :: ' ' :: text))).drop
      (w.length + (s0 :: sp').length) = (d0 :: dtl) ++ sep :: ' ' :: text := by
    rw [show w.length + (s0 :: sp').length = (w ++ (s0 :: sp')).length from
      (List.length_append w (s0 :: sp')).symm,
      ← List.append_assoc w (s0 :: sp') ((d0 :: dtl) ++ sep :: ' ' :: text)]
    exact List.drop_left (w ++ (s0 :: sp')) ((d0 :: dtl) ++ sep :: ' ' :: text)
  simp only [matchNumberedAt, h1, h2, h3, h4,
    tryTail_digits (d0 :: dtl) text sep hds hall hsep]

/-- The numbered-item attempt at position 0, case without whitespace before
the digits: the greedy `\w*` swallows the digits, the first attempt fails,
and backtracking by one character matches with `\d+` on the last digit. -/
theorem matchNumberedAt_nospace (w ds text : List Char) (sep : Char)
    (hw : w.all isWordChar = true) (hds : ds ≠ [])
    (hall : ds.all isDigitChar = true) (hsep : sep = '.' ∨ sep = ':' ∨ sep = ')') :
    matchNumberedAt (w ++ (ds ++ sep :: ' ' :: text)) =
      some (text.takeWhile (fun ch => ch ≠ '\n')) := by
  have hallw : ds.all isWordChar = true := by
    rw [List.all_eq_true] at hall ⊢
    exact fun c hc => digit_word (hall c hc)
  have hwd : (w ++ ds).all isWordChar = true := by
    rw [List.all_append, hw, hallw]
    rfl
  have h1 : (w ++ (ds ++ sep :: ' ' :: text)).takeWhile isWordChar = w ++ ds := by
    rw [← List.append_assoc w ds (sep :: ' ' :: text)]
    exact takeWhile_all_stop isWordChar (w ++ ds) sep (' ' :: text) hwd
      (sep_classes hsep).1
  have h2 : (w ++ (ds ++ sep :: ' ' :: text)).drop (w ++ ds).length =
      sep :: ' ' :: text := by
    rw [← List.append_assoc w ds (sep :: ' ' :: text)]
    exact List.drop_left (w ++ ds) (sep :: ' ' :: text)
  have h3 : (sep :: ' ' :: text).takeWhile isSpaceChar = [] := by
    simp [List.takeWhile_cons, (sep_classes hsep).2.2]
  have h4 : tryTail (sep :: ' ' :: text) = none := by
    have hx : (sep :: ' ' :: text).takeWhile isDigitChar = [] := by
      simp [List.takeWhile_cons, (sep_classes hsep).2.1]
    simp [tryTail, hx]
  obtain ⟨ds', dl, rfl⟩ : ∃ ds' dl, ds = ds' ++ [dl] := by
    obtain ⟨ds', dl, h⟩ := ds.eq_nil_or_concat.resolve_left hds
    exact ⟨ds', dl, by rw [h, List.concat_eq_append]⟩
  have hdl : isDigitChar dl = true := by
    rw [List.all_eq_true] at hall
    exact hall dl (by simp)
  have h5 : (w ++ ((ds' ++ [dl]) ++ sep :: ' ' :: text)).drop (w.length + ds'.length) =
      dl :: sep :: ' ' :: text := by
    rw [show w.length + ds'.length = (w ++ ds').length from
      (List.length_append w ds').symm,
      show w ++ ((ds' ++ [dl]) ++ sep :: ' ' :: text) =
        (w ++ ds') ++ (dl :: sep :: ' ' :: text) by simp]
    exact List.drop_left (w ++ ds') (dl :: sep :: ' ' :: text)
  have hlen : (w ++ (ds' ++ [dl])).length = (w.length + ds'.length) + 1 := by
    simp only [List.length_append, List.length_cons, List.length_nil]
    omega
  have h2' : (w ++ ((ds' ++ [dl]) ++ sep :: ' ' :: text)).drop
      (w.length + ds'.length + 1) = sep :: ' ' :: text := by
    rw [← hlen]
    exact h2
  have h6 : tryTail (dl :: sep :: ' ' :: text) =
      some (text.takeWhile (fun ch => ch ≠ '\n')) :=
    tryTail_digits [dl] text sep (by simp) (by simp [hdl]) hsep
  simp only [matchNumberedAt, h1, hlen, h2', h3, List.length_nil, Nat.add_zero, h4,
    tryBack, h5, h6]

theorem searchNumbered_sound {r : List Char} :
    ∀ cs : List Char, searchNumbered cs = some r → ∃ n, tryTail (cs.drop n) = some r := by
  intro cs
  induction cs with
  | nil => intro h; cases h
  | cons c rest ih =>
    intro h
    rw [searchNumbered] at h
    cases hm : matchNumberedAt (c :: rest) with
    | some r' =>
      rw [hm] at h
      obtain ⟨a, ha⟩ := matchNumberedAt_sound (hm.trans h)
      exact ⟨a, ha⟩
    | none =>
      rw [hm] at h
      obtain ⟨n, hn⟩ := ih h
      exact ⟨n + 1, by rw [List.drop_succ_cons]; exact hn⟩

/-- A successful `tryTail` means the text starts with a digit. -/
theorem tryTail_head_digit {cs r : List Char} (h : tryTail cs = some r) :
    ∃ c cs2, cs = c :: cs2 ∧ isDigitChar c = true := by
  cases cs with
  | nil => simp [tryTail] at h
  | cons c cs2 =>
    cases hv : isDigitChar c with
    | false => simp [tryTail, List.takeWhile_cons, hv] at h
    | true => exact ⟨c, cs2, rfl, hv⟩

/-- If some offset below `n` admits a `\d+…` match, backtracking finds one. -/
theorem tryBack_some {cs r : List Char} :
    ∀ n a, a < n → tryTail (cs.drop a) = some r → ∃ r2, tryBack cs n = some r2 := by
  intro n
  induction n with
  | zero =>
    intro a ha _
    exact absurd ha (by omega)
  | succ m ih =>
    intro a ha h
    cases ht : tryTail (cs.drop m) with
    | some r2 => exact ⟨r2, by rw [tryBack, ht]⟩
    | none =>
      have ham : a ≠ m := by
        intro hae
        rw [hae] at h
        rw [h] at ht
        cases ht
      obtain ⟨r2, hr2⟩ := ih a (by omega) h
      exact ⟨r2, by rw [tryBack, ht]; exact hr2⟩

/-- If `\d+(\.|:|\)) ` matches at the start of `cs`, the anchored attempt
(with its greedy prefix groups and backtracking) succeeds. -/
theorem matchNumberedAt_some {cs r : List Char} (h : tryTail cs = some r) :
    ∃ r2, matchNumberedAt cs = some r2 := by
  obtain ⟨c, cs2, rfl, hc⟩ := tryTail_head_digit h
  cases ht : tryTail ((c :: cs2).drop
      (((c :: cs2).takeWhile isWordChar).length +
        (((c :: cs2).drop (((c :: cs2).takeWhile isWordChar).length)).takeWhile
          isSpaceChar).length)) with
  | some r2 => exact ⟨r2, by rw [matchNumberedAt, ht]⟩
  | none =>
    have hw1 : 0 < ((c :: cs2).takeWhile isWordChar).length := by
      simp [List.takeWhile_cons, digit_word hc]
    obtain ⟨r2, hr2⟩ := @tryBack_some (c :: cs2) r
      (((c :: cs2).takeWhile isWordChar).length) 0 hw1
      (by rw [List.drop_zero]; exact h)
    exact ⟨r2, by rw [matchNumberedAt, ht]; exact hr2⟩

/-- If `\d+(\.|:|\)) ` matches at any position of `cs`, the search succeeds. -/
theorem searchNumbered_some :
    ∀ (cs : List Char) (n : Nat) (r : List Char), tryTail (cs.drop n) = some r →
      ∃ r2, searchNumbered cs = some r2 := by
  intro cs
  induction cs with
  | nil =>
    intro n r h
    rw [List.drop_nil] at h
    simp [tryTail] at h
  | cons c rest ih =>
    intro n r h
    cases hm : matchNumberedAt (c :: rest) with
    | some r2 => exact ⟨r2, by rw [searchNumbered, hm]⟩
    | none =>
      cases n with
      | zero =>
        rw [List.drop_zero] at h
        obtain ⟨r2, hr2⟩ := matchNumberedAt_some h
        rw [hm] at hr2
        cases hr2
      | succ m =>
        rw [List.drop_succ_cons] at h
        obtain ⟨r2, hr2⟩ := ih m r h
        exact ⟨r2, by rw [searchNumbered, hm]; exact hr2⟩

/-- C7 (amended): for every line of the form optional word characters, then
whitespace (or neither), then one or more digits, then a separator in
`{'.', ':', ')'}` and a single space, `parse_ordered_item` returns exactly
the remainder (up to a newline).  The pattern is searched anywhere in the
line (`re.search`), not anchored at its start: every line containing, at any
position, one or more digits followed by such a separator and a space
returns a value, every returned value is the remainder (up to a newline) of
such an occurrence, and the parse returns nothing exactly when the line has
no occurrence anywhere. -/
theorem c7_parse_ordered_item :
    (∀ w sp ds text : List Char, ∀ sep : Char,
      w.all isWordChar = true → sp.all isSpaceChar = true →
      ds ≠ [] → ds.all isDigitChar = true →
      (sep = '.' ∨ sep = ':' ∨ sep = ')') →
      (∀ c ∈ text, c ≠ '\n') →
      parse_numbered_list_item_from_line (w ++ (sp ++ (ds ++ sep :: ' ' :: text))) =
        some text) ∧
    (∀ line r : List Char, parse_numbered_list_item_from_line line = some r →
      ∃ n, ∃ ds rest : List Char, ∃ sep : Char,
        line.drop n = ds ++ sep :: ' ' :: rest ∧ ds ≠ [] ∧ ds.all isDigitChar = true ∧
        (sep = '.' ∨ sep = ':' ∨ sep = ')') ∧
        r = rest.takeWhile (fun ch => ch ≠ '\n')) ∧
    (∀ u ds rest : List Char, ∀ sep : Char,
      ds ≠ [] → ds.all isDigitChar = true →
      (sep = '.' ∨ sep = ':' ∨ sep = ')') →
      ∃ r, parse_numbered_list_item_from_line (u ++ (ds ++ sep :: ' ' :: rest)) =
        some r) := by
  refine ⟨?_, ?_, ?_⟩
  · intro w sp ds text sep hw hsp hds hall hsep htext
    have htw : text.takeWhile (fun ch => ch ≠ '\n') = text :=
      takeWhile_ne_nl_self text htext
    have hm : matchNumberedAt (w ++ (sp ++ (ds ++ sep :: ' ' :: text))) =
        some (text.takeWhile (fun ch => ch ≠ '\n')) := by
      cases sp with
      | nil => exact matchNumberedAt_nospace w ds text sep hw hds hall hsep
      | cons s0 sp' =>
        rw [List.all_cons, Bool.and_eq_true] at hsp
        exact matchNumberedAt_space w sp' ds text s0 sep hw hsp.1 hsp.2 hds hall hsep
    have hne : w ++ (sp ++ (ds ++ sep :: ' ' :: text)) ≠ [] := by
      intro h0
      have hl := congrArg List.length h0
      simp [List.length_append] at hl
    rw [parse_numbered_list_item_from_line, searchNumbered_head hne hm, htw]
  · intro line r h
    rw [parse_numbered_list_item_from_line] at h
    obtain ⟨n, hn⟩ := searchNumbered_sound line h
    obtain ⟨ds, rest, sep, hdecomp, hne, hall, hsep, hr⟩ := tryTail_sound hn
    exact ⟨n, ds, rest, sep, hdecomp, hne, hall, hsep, hr⟩
  · intro u ds rest sep hds hall hsep
    obtain ⟨ds2, dl, rfl⟩ : ∃ ds2 dl, ds = ds2 ++ [dl] := by
      obtain ⟨ds2, dl, hcc⟩ := ds.eq_nil_or_concat.resolve_left hds
      exact ⟨ds2, dl, by rw [hcc, List.concat_eq_append]⟩
    have hdl : isDigitChar dl = true := by
      rw [List.all_eq_true] at hall
      exact hall dl (by simp)
    have hdrop : (u ++ ((ds2 ++ [dl]) ++ sep :: ' ' :: rest)).drop
        (u.length + ds2.length) = dl :: sep :: ' ' :: rest := by
      rw [show u.length + ds2.length = (u ++ ds2).length from
        (List.length_append u ds2).symm,
        show u ++ ((ds2 ++ [dl]) ++ sep :: ' ' :: rest) =
          (u ++ ds2) ++ (dl :: sep :: ' ' :: rest) by simp]
      exact List.drop_left (u ++ ds2) (dl :: sep :: ' ' :: rest)
    have ht : tryTail ((u ++ ((ds2 ++ [dl]) ++ sep :: ' ' :: rest)).drop
        (u.length + ds2.length)) = some (rest.takeWhile (fun ch => ch ≠ '\n')) := by
      rw [hdrop]
      exact tryTail_digits [dl] rest sep (by simp) (by simp [hdl]) hsep
    obtain ⟨r2, hr2⟩ := searchNumbered_some _ _ _ ht
    exact ⟨r2, by rw [parse_numbered_list_item_from_line]; exact hr2⟩

/-- Witness for C7 at the docstring's own example line. -/
theorem c7_parse_ordered_item_witness :
    parse_numbered_list_item_from_line "Chapter 1. The start".toList =
      some "The start".toList := by
  have h := c7_parse_ordered_item.1 "Chapter".toList " ".toList "1".toList
    "The start".toList '.' (by decide) (by decide) (by decide) (by decide)
    (Or.inl rfl) (by decide)
  have e : "Chapter".toList ++ (" ".toList ++ ("1".toList ++ '.' :: ' ' ::
      "The start".toList)) = "Chapter 1. The start".toList := by decide
  rw [← e]
  exact h

/-! ### Inversion of blank-line splitting against joining -/

theorem pysplitGo_fuel (sep : List Char) :
    ∀ n (cs : List Char), cs.length ≤ n → ∀ f1 f2 acc, cs.length ≤ f1 → cs.length ≤ f2 →
      pysplitGo sep f1 cs acc = pysplitGo sep f2 cs acc := by
  intro n
  induction n with
  | zero =>
    intro cs hcs f1 f2 acc h1 h2
    have : cs = [] := List.eq_nil_of_length_eq_zero (Nat.le_zero.mp hcs)
    subst this
    cases f1 <;> cases f2 <;> rfl
  | succ n ih =>
    intro cs hcs f1 f2 acc h1 h2
    cases cs with
    | nil => cases f1 <;> cases f2 <;> rfl
    | cons c rest =>
      rw [List.length_cons] at hcs h1 h2
      obtain ⟨g1, rfl⟩ : ∃ g1, f1 = g1 + 1 := ⟨f1 - 1, by omega⟩
      obtain ⟨g2, rfl⟩ : ∃ g2, f2 = g2 + 1 := ⟨f2 - 1, by omega⟩
      rw [pysplitGo, pysplitGo]
      by_cases hs : startsWithL sep (c :: rest) = true
      · rw [if_pos hs, if_pos hs]
        have hd : (rest.drop (sep.length - 1)).length ≤ rest.length := by
          rw [List.length_drop]
          omega
        rw [ih (rest.drop (sep.length - 1)) (by omega) g1 g2 [] (by omega) (by omega)]
      · rw [if_neg hs, if_neg hs]
        exact ih rest (by omega) g1 g2 (c :: acc) (by omega) (by omega)

theorem pysplitGo_no_sep (p : List Char) :
    ∀ fuel acc, p.length ≤ fuel → noBlank p = true →
      pysplitGo nl2 fuel p acc = [acc.reverse ++ p] := by
  induction p with
  | nil =>
    intro fuel acc _ _
    cases fuel <;> simp [pysplitGo]
  | cons c p' ih =>
    intro fuel acc hf hb
    rw [List.length_cons] at hf
    obtain ⟨f, rfl⟩ : ∃ f, fuel = f + 1 := ⟨fuel - 1, by omega⟩
    have hs : startsWithL nl2 (c :: p') = false := by
      cases p' with
      | nil => simp [nl2, startsWithL]
      | cons c2 p'' =>
        rw [noBlank] at hb
        rw [Bool.and_eq_true, Bool.not_eq_true', Bool.and_eq_false_iff] at hb
        have hc : (decide ('\n' = c) = false) ∨ (decide ('\n' = c2) = false) := by
          rcases hb.1 with h | h
          · left
            rw [decide_eq_false_iff_not] at h ⊢
            exact fun he => h he.symm
          · right
            rw [decide_eq_false_iff_not] at h ⊢
            exact fun he => h he.symm
        rcases hc with h | h <;> simp [nl2, startsWithL, h]
    have hb' : noBlank p' = true := by
      cases p' with
      | nil => rfl
      | cons c2 p'' =>
        rw [noBlank, Bool.and_eq_true] at hb
        exact hb.2
    rw [pysplitGo, if_neg (by simp [hs])]
    rw [ih f (c :: acc) (by omega) hb']
    simp

theorem pysplitGo_blank_step (rest : List Char) :
    ∀ (p : List Char) fuel acc, (p ++ '\n' :: '\n' :: rest).length ≤ fuel →
      noBlank p = true → p.getLast? ≠ some '\n' →
      pysplitGo nl2 fuel (p ++ '\n' :: '\n' :: rest) acc =
        (acc.reverse ++ p) :: pysplitGo nl2 rest.length rest [] := by
  intro p
  induction p with
  | nil =>
    intro fuel acc hf _ _
    rw [List.nil_append, List.length_cons, List.length_cons] at *
    obtain ⟨f, rfl⟩ : ∃ f, fuel = f + 1 := ⟨fuel - 1, by omega⟩
    have hdrop : ('\n' :: rest).drop (nl2.length - 1) = rest := by
      simp [nl2]
    rw [pysplitGo, if_pos (by simp [nl2, startsWithL]), hdrop,
      pysplitGo_fuel nl2 rest.length rest le_rfl f rest.length [] (by omega) le_rfl]
    simp
  | cons c p' ih =>
    intro fuel acc hf hb hl
    rw [List.cons_append] at *
    rw [List.length_cons] at hf
    obtain ⟨f, rfl⟩ : ∃ f, fuel = f + 1 := ⟨fuel - 1, by omega⟩
    have hcne : p' = [] → c ≠ '\n' := by
      intro hp' hc
      rw [hp', hc] at hl
      exact hl rfl
    have hs : startsWithL nl2 (c :: (p' ++ '\n' :: '\n' :: rest)) = false := by
      cases hp' : p' with
      | nil =>
        have hcn := hcne hp'
        subst hp'
        have : decide ('\n' = c) = false := by
          rw [decide_eq_false_iff_not]
          exact fun he => hcn he.symm
        simp [nl2, startsWithL, this]
      | cons c2 p'' =>
        rw [hp', noBlank, Bool.and_eq_true, Bool.not_eq_true',
          Bool.and_eq_false_iff] at hb
        have hc : (decide ('\n' = c) = false) ∨ (decide ('\n' = c2) = false) := by
          rcases hb.1 with h | h
          · left
            rw [decide_eq_false_iff_not] at h ⊢
            exact fun he => h he.symm
          · right
            rw [decide_eq_false_iff_not] at h ⊢
            exact fun he => h he.symm
        rcases hc with h | h <;> simp [nl2, startsWithL, h]
    have hb' : noBlank p' = true := by
      cases hp' : p' with
      | nil => rfl
      | cons c2 p'' =>
        rw [hp', noBlank, Bool.and_eq_true] at hb
        exact hb.2
    have hl' : p'.getLast? ≠ some '\n' := by
      cases hp' : p' with
      | nil => simp
      | cons c2 p'' =>
        rw [hp'] at hl
        rw [List.getLast?_cons_cons] at hl
        exact hl
    rw [pysplitGo, if_neg (by simp [hs])]
    rw [ih f (c :: acc) (by omega) hb' hl']
    simp

theorem pysplit_no_blank (p : List Char) (h : noBlank p = true) :
    pysplit nl2 p = [p] := by
  rw [pysplit, pysplitGo_no_sep p p.length [] le_rfl h]
  rfl

theorem pysplit_blank_step (p rest : List Char) (h1 : noBlank p = true)
    (h2 : p.getLast? ≠ some '\n') :
    pysplit nl2 (p ++ '\n' :: '\n' :: rest) = p :: pysplit nl2 rest := by
  rw [pysplit, pysplitGo_blank_step rest p _ [] le_rfl h1 h2]
  rfl

/-- Blank-line splitting inverts blank-line joining on well-shaped
paragraphs. -/
theorem pysplit_pyjoin (ps : List (List Char)) (hne : ps ≠ [])
    (h : ∀ p ∈ ps, goodPar p) : pysplit nl2 (pyjoin nl2 ps) = ps := by
  induction ps with
  | nil => exact absurd rfl hne
  | cons p ps' ih =>
    cases ps' with
    | nil =>
      rw [pyjoin, pysplit_no_blank p (h p (by simp)).1]
    | cons q ps'' =>
      rw [pyjoin]
      have hassoc : p ++ nl2 ++ pyjoin nl2 (q :: ps'') =
          p ++ '\n' :: '\n' :: pyjoin nl2 (q :: ps'') := by
        rw [List.append_assoc]
        rfl
      rw [hassoc, pysplit_blank_step p _ (h p (by simp)).1 (h p (by simp)).2,
        ih (by simp) (fun x hx => h x (by simp [hx]))]

/-- C4: `extract_central_text` splits on blank-line boundaries, discards the
`"---"` paragraphs, and returns: the empty string for 0 kept paragraphs; the
sole paragraph for 1; for 2 the second unless `include_start`, in which case
both joined; for 3 or more the blank-line join of all paragraphs excluding
the first unless `include_start` and the last unless `include_end`. -/
theorem c4_extract_central_text_cases (ps : List (List Char)) (hne : ps ≠ [])
    (h : ∀ p ∈ ps, goodPar p) (is ie : Bool) :
    extract_central_text (pyjoin nl2 ps) is ie =
      centralSpec (ps.filter (fun p => p ≠ "---".toList)) is ie := by
  simp only [extract_central_text, pysplit_pyjoin ps hne h]
  generalize ps.filter (fun p => p ≠ "---".toList) = qs
  match qs with
  | [] => rfl
  | [b] => rfl
  | [b1, b2] =>
    cases is <;> rfl
  | b1 :: b2 :: b3 :: qs' =>
    show pyjoin nl2 _ = pyjoin nl2 _
    cases ie <;> cases is <;>
      simp [List.take_length, List.dropLast_eq_take]

/-- Witness for C4 at the specification's three-paragraph example. -/
theorem c4_extract_central_text_cases_witness :
    extract_central_text "A\n\nB\n\nC".toList false false = "B".toList ∧
    extract_central_text "A\n\nB\n\nC".toList true false = "A\n\nB".toList ∧
    extract_central_text "A\n\nB\n\nC".toList true true = "A\n\nB\n\nC".toList := by
  have hj : pyjoin nl2 ["A".toList, "B".toList, "C".toList] = "A\n\nB\n\nC".toList := by
    decide
  have hgood : ∀ p ∈ ["A".toList, "B".toList, "C".toList], goodPar p := by
    intro p hp
    simp only [List.mem_cons, List.not_mem_nil, or_false] at hp
    rcases hp with rfl | rfl | rfl <;> exact ⟨by decide, by decide⟩
  refine ⟨?_, ?_, ?_⟩
  · rw [← hj, c4_extract_central_text_cases _ (by simp) hgood]
    decide
  · rw [← hj, c4_extract_central_text_cases _ (by simp) hgood]
    decide
  · rw [← hj, c4_extract_central_text_cases _ (by simp) hgood]
    decide

/-- The paragraph-strategy loop computes the fold of dict-inserts of each
paragraph's header and per-line bulleted-parse results. -/
theorem extractByParagraphsGo_spec :
    ∀ (ps : List (List Char)) (d : SectionMap), (∀ p ∈ ps, pylines p ≠ []) →
      extractByParagraphsGo ps d =
        Except.ok (ps.foldl (fun d p => odInsert d (parHeader p) (parValue p)) d) := by
  intro ps
  induction ps with
  | nil => intro d _; rfl
  | cons p rest ih =>
    intro d h
    have hp : pylines p ≠ [] := h p (by simp)
    cases hL : pylines p with
    | nil => exact absurd hL hp
    | cons l0 rest' =>
      simp only [extractByParagraphsGo, parse_one_section_to_subsections, hL]
      rw [ih _ (fun q hq => h q (by simp [hq]))]
      rw [List.foldl_cons]
      have hh : parHeader p = (match parse_numbered_list_item_from_line l0 with
          | some s => if s = [] then l0 else s
          | none => l0) := by
        simp only [parHeader, hL]
      have hv : parValue p =
          normSubs (some (rest'.map parse_unordered_list_item_from_line)) := by
        simp only [parValue, hL]
      rw [hh, hv]

/-- C5 (amended): a ToC with at least one blank-line paragraph break is
handled by the paragraph strategy, which maps each paragraph's first line
(numbered-item remainder, falling back to the raw line) to `none` when the
paragraph has no further lines, and otherwise to the ordered sequence of the
per-line bulleted-item parse results of the remaining lines — where a line
that is not a bulleted item contributes a null placeholder. -/
theorem c5_paragraph_outline (ps : List (List Char)) (hlen : 2 ≤ ps.length)
    (h : ∀ p ∈ ps, goodPar p ∧ pylines p ≠ []) :
    extract_sections_from_toc (pyjoin nl2 ps) =
      Except.ok (ps.foldl (fun d p => odInsert d (parHeader p) (parValue p)) []) := by
  have hne : ps ≠ [] := by
    intro h0
    rw [h0] at hlen
    simp at hlen
  have hsplit : pysplit nl2 (pyjoin nl2 ps) = ps :=
    pysplit_pyjoin ps hne (fun p hp => (h p hp).1)
  have hpne : ∀ p ∈ ps, p ≠ [] := by
    intro p hp h0
    have := (h p hp).2
    rw [h0] at this
    exact this rfl
  rw [extract_sections_from_toc, if_pos (by rw [hsplit]; omega)]
  rw [extract_sections_subsections_by_paragraphs, hsplit]
  rw [List.filter_eq_self.mpr (fun a ha => by simpa using hpne a ha)]
  exact extractByParagraphsGo_spec ps [] (fun p hp => (h p hp).2)

/-- Witness for C5 at a two-paragraph ToC. -/
theorem c5_paragraph_outline_witness :
    extract_sections_from_toc "1. A\n- a1\n\n2. B".toList =
      Except.ok [("A".toList, some [some "a1".toList]), ("B".toList, none)] := by
  have hj : pyjoin nl2 ["1. A\n- a1".toList, "2. B".toList] = "1. A\n- a1\n\n2. B".toList := by
    decide
  have hh : ∀ p ∈ ["1. A\n- a1".toList, "2. B".toList], goodPar p ∧ pylines p ≠ [] := by
    intro p hp
    simp only [List.mem_cons, List.not_mem_nil, or_false] at hp
    rcases hp with rfl | rfl <;> exact ⟨⟨by decide, by decide⟩, by decide⟩
  rw [← hj, c5_paragraph_outline _ (by decide) hh]
  rfl

/-! ### C6: the line-by-line strategy's recovery heuristic -/

/-- Lines that are neither numbered nor bulleted only update the
previous-line tracker. -/
theorem scanTocLines_plain :
    ∀ (pre : List (List Char)) (p : List Char),
      (∀ l ∈ pre ++ [p], parse_numbered_list_item_from_line l = none ∧
        parse_unordered_list_item_from_line l = none) →
      ∀ d cs css pv xs,
        scanTocLines d cs css pv ((pre ++ [p]) ++ xs) = scanTocLines d cs css (some p) xs := by
  intro pre
  induction pre with
  | nil =>
    intro p hplain d cs css pv xs
    have hp := hplain p (by simp)
    simp only [List.nil_append, List.cons_append, scanTocLines, hp.1, hp.2]
    rfl
  | cons q pre' ih =>
    intro p hplain d cs css pv xs
    have hq := hplain q (by simp)
    rw [List.cons_append, List.cons_append]
    simp only [scanTocLines, hq.1, hq.2]
    exact ih p (fun l hl => hplain l (by simp at hl ⊢; tauto)) d cs css (some q) xs

/-- C6: in the line-by-line outline strategy, when a bulleted line is met
while no section is open: if it is not the first (non-empty) line, the
immediately preceding line becomes an un-numbered section header with the
subsection attached under it (second and third conjuncts); if it is the
first line, a `RuntimeError` is raised (first conjunct). -/
theorem c6_line_strategy_recovery :
    (∀ (toc l1 : List Char) (rest : List (List Char)) (s : List Char),
      pylines toc = l1 :: rest →
      parse_numbered_list_item_from_line l1 = none →
      parse_unordered_list_item_from_line l1 = some s →
      extract_sections_subsections_by_line toc =
        Except.error "Subsection occurs without a section header!") ∧
    (∀ (toc : List Char) (pre : List (List Char)) (p lb : List Char)
        (rest : List (List Char)) (s : List Char),
      pylines toc = (pre ++ [p]) ++ lb :: rest →
      (∀ l ∈ pre ++ [p], parse_numbered_list_item_from_line l = none ∧
        parse_unordered_list_item_from_line l = none) →
      parse_numbered_list_item_from_line lb = none →
      parse_unordered_list_item_from_line lb = some s →
      extract_sections_subsections_by_line toc =
        scanTocLines [] (some p) (some [some s]) (some lb) rest) ∧
    (∀ (toc : List Char) (pre : List (List Char)) (p lb : List Char) (s : List Char),
      pylines toc = (pre ++ [p]) ++ [lb] →
      (∀ l ∈ pre ++ [p], parse_numbered_list_item_from_line l = none ∧
        parse_unordered_list_item_from_line l = none) →
      parse_numbered_list_item_from_line lb = none →
      parse_unordered_list_item_from_line lb = some s →
      extract_sections_subsections_by_line toc =
        Except.ok [(p, some [some s])]) := by
  have hstep : ∀ (pre : List (List Char)) (p lb : List Char)
      (rest : List (List Char)) (s : List Char),
      (∀ l ∈ pre ++ [p], parse_numbered_list_item_from_line l = none ∧
        parse_unordered_list_item_from_line l = none) →
      parse_numbered_list_item_from_line lb = none →
      parse_unordered_list_item_from_line lb = some s →
      scanTocLines [] none none none ((pre ++ [p]) ++ lb :: rest) =
        scanTocLines [] (some p) (some [some s]) (some lb) rest := by
    intro pre p lb rest s hplain hn hb
    rw [scanTocLines_plain pre p hplain [] none none none (lb :: rest)]
    simp only [scanTocLines, hn, hb]
  refine ⟨?_, ?_, ?_⟩
  · intro toc l1 rest s hL hn hb
    rw [extract_sections_subsections_by_line, hL]
    simp only [scanTocLines, hn, hb]
  · intro toc pre p lb rest s hL hplain hn hb
    rw [extract_sections_subsections_by_line, hL]
    exact hstep pre p lb rest s hplain hn hb
  · intro toc pre p lb s hL hplain hn hb
    rw [extract_sections_subsections_by_line, hL, hstep pre p lb [] s hplain hn hb]
    rfl

/-- Witness for C6: a first-line bullet raises; a bullet after a plain
header line attaches under that line. -/
theorem c6_line_strategy_recovery_witness :
    extract_sections_subsections_by_line "- x".toList =
      Except.error "Subsection occurs without a section header!" ∧
    extract_sections_subsections_by_line "Header\n- x".toList =
      Except.ok [("Header".toList, some [some "x".toList])] := by
  constructor
  · exact c6_line_strategy_recovery.1 "- x".toList "- x".toList [] "x".toList
      (by rfl) (by rfl) (by rfl)
  · refine c6_line_strategy_recovery.2.2 "Header\n- x".toList [] "Header".toList
      "- x".toList "x".toList (by rfl) ?_ (by rfl) (by rfl)
    intro l hl
    simp only [List.nil_append, List.mem_cons, List.not_mem_nil, or_false] at hl
    subst hl
    exact ⟨by rfl, by rfl⟩

/-! ### C2: near-duplicate termination of the continuation loop -/

theorem levenshtein_nil_left (ys : List Char) :
    levenshtein_distance [] ys = ys.length := by
  rw [levenshtein_distance, List.foldl_nil, List.range_succ, List.getLast?_concat]
  rfl

/-- C2 (amended): the loop stops, returning the accumulated text unchanged,
whenever the edit distance between `last_text` and the new raw fragment,
normalized by the longer length, is below 5 % (first conjunct, with the
float comparison modelled exactly as `20 * d < max`); and when the check
does not stop the loop, the loop recurses with `last_text` set to the
*extracted* central text of the new raw fragment — not the raw fragment
(second conjunct). -/
theorem c2_similar_terminates :
    (∀ (out last text : List Char) (rest : List (List Char)),
      0 < max last.length out.length →
      20 * levenshtein_distance last out < max last.length out.length →
      iterGo (out :: rest) text last = text) ∧
    (∀ (out last text : List Char) (rest : List (List Char)),
      check_if_finished last out ≠ none →
      iterGo (out :: rest) text last =
        iterGo rest (mergeStep text (extract_central_text out))
          (extract_central_text out)) := by
  constructor
  · intro out last text rest hmax hlev
    have hcheck : check_if_finished last out = none := by
      rw [check_if_finished]
      by_cases hd : startsWithL "Done.".toList out = true
      · rw [if_pos hd]
      · have hne : last ≠ [] := by
          intro h0
          subst h0
          rw [levenshtein_nil_left] at hlev
          simp only [List.length_nil, Nat.max_eq_right (Nat.zero_le _)] at hlev hmax
          omega
        rw [if_neg hd, if_pos ⟨hne, hlev⟩]
    simp only [iterGo, hcheck]
  · intro out last text rest hch
    cases hc : check_if_finished last out with
    | none => exact absurd hc hch
    | some raw =>
      have hraw : raw = out := by
        by_cases h1 : startsWithL "Done.".toList out = true
        · rw [check_if_finished, if_pos h1] at hc
          cases hc
        · rw [check_if_finished, if_neg h1] at hc
          by_cases h2 : last ≠ [] ∧
              20 * levenshtein_distance last out < max last.length out.length
          · rw [if_pos h2] at hc
            cases hc
          · rw [if_neg h2] at hc
            exact (Option.some_inj.mp hc).symm
      subst hraw
      simp only [iterGo, hc]

/-- Witness for C2 at two 21-character strings of edit distance 1. -/
theorem c2_similar_terminates_witness :
    iterGo ["aaaaaaaaaaaaaaaaaaaab".toList] "acc".toList
      "aaaaaaaaaaaaaaaaaaaac".toList = "acc".toList :=
  c2_similar_terminates.1 "aaaaaaaaaaaaaaaaaaaab".toList
    "aaaaaaaaaaaaaaaaaaaac".toList "acc".toList [] (by decide) (by decide)

/-! ### C10: merge with no common substring keeps only the new fragment -/

/-- C10: if the accumulated text and the new fragment share no character
(hence no non-empty common substring — the longest common match has length
zero), the merge step returns the new fragment alone: the previously
accumulated text is discarded. -/
theorem c10_no_overlap_returns_fragment (a b : List Char)
    (h : ∀ c ∈ a, c ∉ b) : mergeStep a b = b := by
  have hb2j : ∀ c ∈ a, b2jList b c = [] := by
    intro c hc
    rw [b2jList]
    split
    · rfl
    · apply List.filter_eq_nil_iff.mpr
      intro j hj
      simp only [decide_eq_true_eq]
      intro he
      exact h c hc (mem_of_some_getElem he)
  have hflm : ∀ (suffix : List Char) i j2len best, (∀ c ∈ suffix, b2jList b c = []) →
      flmLoop b suffix i j2len best = best := by
    intro suffix
    induction suffix with
    | nil => intro i j2len best _; rfl
    | cons c rest ih =>
      intro i j2len best hall
      simp only [flmLoop, hall c (by simp), List.foldl_nil]
      exact ih (i + 1) _ best (fun x hx => hall x (by simp [hx]))
  have hextR : ∀ ok : Char → Bool,
      (∀ x y, a[0]? = some x → b[0]? = some y → ¬(ok y = true ∧ x = y)) →
      extRight a b ok 0 0 a.length 0 = 0 := by
    intro ok hxy
    cases ha : a.length with
    | zero => rfl
    | succ n =>
      simp only [extRight, Nat.add_zero]
      cases hga : a[0]? with
      | none => rfl
      | some x =>
        cases hgb : b[0]? with
        | none => rfl
        | some y =>
          exact if_neg (hxy x y hga hgb)
  have hflm_eq : find_longest_match a b = (0, 0, 0) := by
    have hdp : flmLoop b a 0 (fun _ => 0) (0, 0, 0) = (0, 0, 0) := hflm a 0 _ _ hb2j
    have hR1 : extRight a b (fun c => !isbjunk c) 0 0 a.length 0 = 0 := by
      apply hextR
      intro x y hga hgb hcond
      exact h x (mem_of_some_getElem hga) (hcond.2 ▸ mem_of_some_getElem hgb)
    have hR2 : extRight a b isbjunk 0 0 a.length 0 = 0 := by
      apply hextR
      intro x y _ _ hcond
      simp [isbjunk] at hcond
    simp only [find_longest_match, hdp, extLeft, hR1, hR2]
  rw [mergeStep, hflm_eq]
  simp

/-- Witness for C10 at two character-disjoint strings. -/
theorem c10_no_overlap_returns_fragment_witness :
    mergeStep "abcd".toList "xyz".toList = "xyz".toList :=
  c10_no_overlap_returns_fragment "abcd".toList "xyz".toList (by decide)

/-! ### C1: the DP of `find_longest_match` finds a maximal common block

`runLen a b i j` is the length of the matching run ending at `a`-index
`i - 1` and `b`-index `j`; matching blocks and runs determine each other, the
DP maintains `j2len = runLen` row by row, and the extension loops only ever
extend a valid block. -/

theorem runLen_le (a b : List Char) :
    ∀ i j, runLen a b i j ≤ i ∧ runLen a b i j ≤ j + 1 := by
  intro i
  induction i with
  | zero => intro j; exact ⟨Nat.le_refl 0, Nat.zero_le _⟩
  | succ i ih =>
    intro j
    cases hga : a[i]? with
    | none => simp [runLen, hga]
    | some x =>
      cases hgb : b[j]? with
      | none => simp [runLen, hga, hgb]
      | some y =>
        by_cases hxy : x = y
        · subst hxy
          cases j with
          | zero =>
            have hr : runLen a b (i + 1) 0 = 1 := by simp [runLen, hga, hgb]
            rw [hr]
            exact ⟨by omega, by omega⟩
          | succ j' =>
            have hr : runLen a b (i + 1) (j' + 1) = runLen a b i j' + 1 := by
              simp [runLen, hga, hgb]
            have := ih j'
            rw [hr]
            exact ⟨by omega, by omega⟩
        · simp [runLen, hga, hgb, hxy]

theorem runLen_zero_of_long (a b : List Char) :
    ∀ i j, a.length < i → runLen a b i j = 0 := by
  intro i j hi
  cases i with
  | zero => omega
  | succ m =>
    simp only [runLen, List.getElem?_eq_none (show a.length ≤ m by omega)]

theorem block_cons_right {a b : List Char} {p q k : Nat} {c : Char}
    (hb : isCommonBlock a b p q k) (hga : a[p + k]? = some c)
    (hgb : b[q + k]? = some c) : isCommonBlock a b p q (k + 1) := by
  obtain ⟨h1, h2, h3⟩ := hb
  have hpa : p + k < a.length := by
    rw [List.getElem?_eq_some] at hga
    exact hga.choose
  have hqb : q + k < b.length := by
    rw [List.getElem?_eq_some] at hgb
    exact hgb.choose
  refine ⟨by omega, by omega, ?_⟩
  rw [List.take_succ, List.take_succ, List.getElem?_drop, List.getElem?_drop, hga, hgb,
    h3]

theorem block_split {a b : List Char} {p q k : Nat}
    (hb : isCommonBlock a b p q (k + 1)) :
    isCommonBlock a b p q k ∧ ∃ c, a[p + k]? = some c ∧ b[q + k]? = some c := by
  obtain ⟨h1, h2, h3⟩ := hb
  have hpa : p + k < a.length := by omega
  have hqb : q + k < b.length := by omega
  rw [List.take_succ, List.take_succ, List.getElem?_drop, List.getElem?_drop] at h3
  obtain ⟨x, hga⟩ : ∃ x, a[p + k]? = some x := ⟨_, List.getElem?_eq_getElem hpa⟩
  obtain ⟨y, hgb⟩ : ∃ y, b[q + k]? = some y := ⟨_, List.getElem?_eq_getElem hqb⟩
  rw [hga, hgb] at h3
  have hlen : ((a.drop p).take k).length = ((b.drop q).take k).length := by
    rw [List.length_take, List.length_take, List.length_drop, List.length_drop]
    omega
  have hinj := List.append_inj h3 hlen
  have hxy : x = y := by
    have h4 := hinj.2
    simpa [Option.toList] using h4
  exact ⟨⟨by omega, by omega, hinj.1⟩, x, hga, hxy ▸ hgb⟩

theorem runLen_block (a b : List Char) :
    ∀ i j, 1 ≤ runLen a b i j →
      isCommonBlock a b (i - runLen a b i j) (j + 1 - runLen a b i j) (runLen a b i j) := by
  intro i
  induction i with
  | zero =>
    intro j h
    simp only [runLen] at h
    exact absurd h (by omega)
  | succ i ih =>
    intro j h
    cases hga : a[i]? with
    | none =>
      simp only [runLen, hga] at h
      exact absurd h (by omega)
    | some x =>
      cases hgb : b[j]? with
      | none =>
        simp only [runLen, hga, hgb] at h
        exact absurd h (by omega)
      | some y =>
        by_cases hxy : x = y
        · subst hxy
          have hia : i < a.length := by
            rw [List.getElem?_eq_some] at hga
            exact hga.choose
          have hjb : j < b.length := by
            rw [List.getElem?_eq_some] at hgb
            exact hgb.choose
          cases j with
          | zero =>
            have hr : runLen a b (i + 1) 0 = 1 := by
              simp [runLen, hga, hgb]
            rw [hr]
            have hbase : isCommonBlock a b i 0 0 := ⟨by omega, by omega, by simp⟩
            have hext := block_cons_right hbase (by simpa using hga) (by simpa using hgb)
            have e1 : i + 1 - 1 = i := by omega
            rw [e1]
            simpa using hext
          | succ j' =>
            by_cases h1 : 1 ≤ runLen a b i j'
            · have hblk := ih j' h1
              have hle := runLen_le a b i j'
              have hr : runLen a b (i + 1) (j' + 1) = runLen a b i j' + 1 := by
                simp [runLen, hga, hgb]
              rw [hr]
              have hpos : (i - runLen a b i j') + runLen a b i j' = i := by omega
              have hpos2 : (j' + 1 - runLen a b i j') + runLen a b i j' = j' + 1 := by
                omega
              have hext := block_cons_right hblk (by rw [hpos]; exact hga)
                (by rw [hpos2]; exact hgb)
              have e1 : i + 1 - (runLen a b i j' + 1) = i - runLen a b i j' := by omega
              have e2 : j' + 1 + 1 - (runLen a b i j' + 1) = j' + 1 - runLen a b i j' := by
                omega
              rw [e1, e2]
              exact hext
            · have h0 : runLen a b i j' = 0 := by omega
              have hr : runLen a b (i + 1) (j' + 1) = 1 := by
                simp [runLen, hga, hgb, h0]
              rw [hr]
              have hbase : isCommonBlock a b i (j' + 1) 0 := ⟨by omega, by omega, by simp⟩
              have hext := block_cons_right hbase (by simpa using hga) (by simpa using hgb)
              have e1 : i + 1 - 1 = i := by omega
              have e2 : j' + 1 + 1 - 1 = j' + 1 := by omega
              rw [e1, e2]
              simpa using hext
        · simp only [runLen, hga, hgb, if_neg hxy] at h
          exact absurd h (by omega)

theorem block_runLen (a b : List Char) :
    ∀ k p q, isCommonBlock a b p q (k + 1) →
      k + 1 ≤ runLen a b (p + k + 1) (q + k) := by
  intro k
  induction k with
  | zero =>
    intro p q hb
    obtain ⟨_, c, hga, hgb⟩ := block_split hb
    simp only [Nat.add_zero] at hga hgb
    simp only [Nat.add_zero, Nat.zero_add]
    cases q with
    | zero =>
      have hr : runLen a b (p + 1) 0 = 1 := by simp [runLen, hga, hgb]
      omega
    | succ q' =>
      have hr : runLen a b (p + 1) (q' + 1) = runLen a b p q' + 1 := by
        simp [runLen, hga, hgb]
      omega
  | succ k ih =>
    intro p q hb
    obtain ⟨hbk, c, hga, hgb⟩ := block_split hb
    have hih := ih p q hbk
    have hga2 : a[p + k + 1]? = some c := by
      rw [show p + k + 1 = p + (k + 1) from by omega]
      exact hga
    have hgb2 : b[q + k + 1]? = some c := by
      rw [show q + k + 1 = q + (k + 1) from by omega]
      exact hgb
    have hr : runLen a b (p + k + 1 + 1) (q + k + 1) =
        runLen a b (p + k + 1) (q + k) + 1 := by
      simp [runLen, hga2, hgb2]
    have e1 : p + (k + 1) + 1 = p + k + 1 + 1 := by omega
    have e2 : q + (k + 1) = q + k + 1 := by omega
    rw [e1, e2, hr]
    omega

theorem block_cons_left {a b : List Char} {p q k : Nat} {c : Char}
    (hb : isCommonBlock a b (p + 1) (q + 1) k) (hga : a[p]? = some c)
    (hgb : b[q]? = some c) : isCommonBlock a b p q (k + 1) := by
  obtain ⟨h1, h2, h3⟩ := hb
  have hpa : p < a.length := by
    rw [List.getElem?_eq_some] at hga
    exact hga.choose
  have hqb : q < b.length := by
    rw [List.getElem?_eq_some] at hgb
    exact hgb.choose
  refine ⟨by omega, by omega, ?_⟩
  have hda : a.drop p = c :: a.drop (p + 1) := by
    rw [List.drop_eq_getElem_cons hpa]
    rw [List.getElem?_eq_getElem hpa] at hga
    rw [Option.some_inj.mp hga]
  have hdb : b.drop q = c :: b.drop (q + 1) := by
    rw [List.drop_eq_getElem_cons hqb]
    rw [List.getElem?_eq_getElem hqb] at hgb
    rw [Option.some_inj.mp hgb]
  rw [hda, hdb, List.take_succ_cons, List.take_succ_cons, h3]

theorem b2jList_complete {b : List Char} (hb : b.length < 200) (c : Char) (j : Nat) :
    j ∈ b2jList b c ↔ b[j]? = some c := by
  have hpop : bPopular b c = false := by
    rw [bPopular]
    simp [Nat.not_le.mpr hb]
  rw [b2jList, hpop]
  simp only [Bool.false_eq_true, if_false]
  constructor
  · intro hm
    rw [List.mem_filter] at hm
    simpa using hm.2
  · intro hg
    rw [List.mem_filter]
    refine ⟨List.mem_range.mpr ?_, by simpa using hg⟩
    rw [List.getElem?_eq_some] at hg
    exact hg.choose

theorem flmFold_spec (a b : List Char) (i : Nat) (nj : Nat → Nat) :
    ∀ (js : List Nat) (best : Nat × Nat × Nat),
      isCommonBlock a b best.1 best.2.1 best.2.2 →
      (∀ j ∈ js, 1 ≤ nj j →
        isCommonBlock a b (i + 1 - nj j) (j + 1 - nj j) (nj j)) →
      isCommonBlock a b
        (js.foldl (fun bst j =>
          if bst.2.2 < nj j then (i + 1 - nj j, j + 1 - nj j, nj j) else bst) best).1
        (js.foldl (fun bst j =>
          if bst.2.2 < nj j then (i + 1 - nj j, j + 1 - nj j, nj j) else bst) best).2.1
        (js.foldl (fun bst j =>
          if bst.2.2 < nj j then (i + 1 - nj j, j + 1 - nj j, nj j) else bst) best).2.2 ∧
      best.2.2 ≤ (js.foldl (fun bst j =>
          if bst.2.2 < nj j then (i + 1 - nj j, j + 1 - nj j, nj j) else bst) best).2.2 ∧
      (∀ j ∈ js, nj j ≤ (js.foldl (fun bst j =>
          if bst.2.2 < nj j then (i + 1 - nj j, j + 1 - nj j, nj j) else bst) best).2.2) := by
  intro js
  induction js with
  | nil =>
    intro best hbest _
    exact ⟨hbest, Nat.le_refl _, by simp⟩
  | cons j js' ih =>
    intro best hbest hcand
    rw [List.foldl_cons]
    by_cases hlt : best.2.2 < nj j
    · rw [if_pos hlt]
      have hk : 1 ≤ nj j := by omega
      have hc := hcand j (by simp) hk
      have hres := ih (i + 1 - nj j, j + 1 - nj j, nj j) hc
        (fun q hq hq1 => hcand q (by simp [hq]) hq1)
      refine ⟨hres.1, ?_, ?_⟩
      · exact le_trans (le_of_lt hlt) hres.2.1
      · intro q hq
        rcases List.mem_cons.mp hq with rfl | hq2
        · exact hres.2.1
        · exact hres.2.2 q hq2
    · rw [if_neg hlt]
      have hres := ih best hbest (fun q hq hq1 => hcand q (by simp [hq]) hq1)
      refine ⟨hres.1, hres.2.1, ?_⟩
      intro q hq
      rcases List.mem_cons.mp hq with rfl | hq2
      · exact le_trans (by omega) hres.2.1
      · exact hres.2.2 q hq2

theorem flmLoop_spec {a b : List Char} (hsmall : b.length < 200) :
    ∀ (suffix : List Char) (i : Nat) (j2len : Nat → Nat) (best : Nat × Nat × Nat),
      a.drop i = suffix →
      (∀ j, j2len j = runLen a b i j) →
      isCommonBlock a b best.1 best.2.1 best.2.2 →
      (∀ i2, i2 ≤ i → ∀ j, runLen a b i2 j ≤ best.2.2) →
      isCommonBlock a b (flmLoop b suffix i j2len best).1
        (flmLoop b suffix i j2len best).2.1 (flmLoop b suffix i j2len best).2.2 ∧
      ∀ i2 j, runLen a b i2 j ≤ (flmLoop b suffix i j2len best).2.2 := by
  intro suffix
  induction suffix with
  | nil =>
    intro i j2len best hdrop _ hbest hmax
    have hlen : a.length ≤ i := by
      rw [← List.drop_eq_nil_iff]
      exact hdrop
    refine ⟨hbest, ?_⟩
    intro i2 j
    by_cases hi2 : i2 ≤ i
    · exact hmax i2 hi2 j
    · rw [runLen_zero_of_long a b i2 j (by omega)]
      exact Nat.zero_le _
  | cons c rest ih =>
    intro i j2len best hdrop hj2 hbest hmax
    have hget : a[i]? = some c := by
      have h0 : (a.drop i)[0]? = some c := by
        rw [hdrop]
        simp
      rwa [List.getElem?_drop, Nat.add_zero] at h0
    have hdrop2 : a.drop (i + 1) = rest := by
      have hdd : (a.drop i).drop 1 = a.drop (i + 1) := List.drop_drop 1 i a
      rw [hdrop] at hdd
      exact hdd.symm
    have hnj : ∀ j, (if j ∈ b2jList b c then (if j = 0 then 1 else j2len (j - 1) + 1)
        else 0) = runLen a b (i + 1) j := by
      intro j
      by_cases hm : j ∈ b2jList b c
      · have hgbj : b[j]? = some c := (b2jList_complete hsmall c j).mp hm
        rw [if_pos hm]
        cases j with
        | zero => simp [runLen, hget, hgbj]
        | succ j2 =>
          have hr : runLen a b (i + 1) (j2 + 1) = runLen a b i j2 + 1 := by
            simp [runLen, hget, hgbj]
          rw [hr]
          simp [hj2 j2]
      · rw [if_neg hm]
        have hgbj : b[j]? ≠ some c := fun hg => hm ((b2jList_complete hsmall c j).mpr hg)
        cases hgb2 : b[j]? with
        | none => simp [runLen, hget, hgb2]
        | some y =>
          have hy : y ≠ c := fun hyc => hgbj (hyc ▸ hgb2)
          have hcy : ¬(c = y) := fun hcy => hy hcy.symm
          simp [runLen, hget, hgb2, hcy]
    have hcand : ∀ j ∈ b2jList b c, 1 ≤ (if j ∈ b2jList b c then
        (if j = 0 then 1 else j2len (j - 1) + 1) else 0) →
        isCommonBlock a b
          (i + 1 - (if j ∈ b2jList b c then (if j = 0 then 1 else j2len (j - 1) + 1) else 0))
          (j + 1 - (if j ∈ b2jList b c then (if j = 0 then 1 else j2len (j - 1) + 1) else 0))
          (if j ∈ b2jList b c then (if j = 0 then 1 else j2len (j - 1) + 1) else 0) := by
      intro j _ h1
      rw [hnj j] at h1 ⊢
      exact runLen_block a b (i + 1) j h1
    have hfold := flmFold_spec a b i
      (fun j => if j ∈ b2jList b c then (if j = 0 then 1 else j2len (j - 1) + 1) else 0)
      (b2jList b c) best hbest hcand
    have hmax2 : ∀ i2, i2 ≤ i + 1 → ∀ j, runLen a b i2 j ≤
        ((b2jList b c).foldl (fun bst j =>
          if bst.2.2 < (if j ∈ b2jList b c then (if j = 0 then 1 else j2len (j - 1) + 1) else 0)
          then (i + 1 - (if j ∈ b2jList b c then (if j = 0 then 1 else j2len (j - 1) + 1) else 0),
            j + 1 - (if j ∈ b2jList b c then (if j = 0 then 1 else j2len (j - 1) + 1) else 0),
            (if j ∈ b2jList b c then (if j = 0 then 1 else j2len (j - 1) + 1) else 0))
          else bst) best).2.2 := by
      intro i2 hi2 j
      by_cases hle : i2 ≤ i
      · exact le_trans (hmax i2 hle j) hfold.2.1
      · have hi2e : i2 = i + 1 := by omega
        subst hi2e
        rw [← hnj j]
        by_cases hm : j ∈ b2jList b c
        · exact hfold.2.2 j hm
        · rw [if_neg hm]
          exact Nat.zero_le _
    exact ih (i + 1)
      (fun j => if j ∈ b2jList b c then (if j = 0 then 1 else j2len (j - 1) + 1) else 0)
      _ hdrop2 hnj hfold.1 hmax2

theorem extLeft_spec (a b : List Char) (ok : Char → Bool) :
    ∀ i j k, isCommonBlock a b i j k →
      isCommonBlock a b (extLeft a b ok i j k).1 (extLeft a b ok i j k).2.1
        (extLeft a b ok i j k).2.2 ∧ k ≤ (extLeft a b ok i j k).2.2 := by
  intro i
  induction i with
  | zero =>
    intro j k hb
    exact ⟨hb, Nat.le_refl k⟩
  | succ i ih =>
    intro j k hb
    cases j with
    | zero => exact ⟨hb, Nat.le_refl k⟩
    | succ j =>
      cases hga : a[i]? with
      | none =>
        have he : extLeft a b ok (i + 1) (j + 1) k = (i + 1, j + 1, k) := by
          simp [extLeft, hga]
        rw [he]
        exact ⟨hb, Nat.le_refl k⟩
      | some x =>
        cases hgb : b[j]? with
        | none =>
          have he : extLeft a b ok (i + 1) (j + 1) k = (i + 1, j + 1, k) := by
            simp [extLeft, hga, hgb]
          rw [he]
          exact ⟨hb, Nat.le_refl k⟩
        | some y =>
          by_cases hc : ok y = true ∧ x = y
          · have he : extLeft a b ok (i + 1) (j + 1) k = extLeft a b ok i j (k + 1) := by
              simp [extLeft, hga, hgb, hc]
            rw [he]
            obtain ⟨hok, hxy⟩ := hc
            subst hxy
            have hblk : isCommonBlock a b i j (k + 1) := block_cons_left hb hga hgb
            have hres := ih j (k + 1) hblk
            exact ⟨hres.1, le_trans (Nat.le_succ k) hres.2⟩
          · have he : extLeft a b ok (i + 1) (j + 1) k = (i + 1, j + 1, k) := by
              simp [extLeft, hga, hgb, hc]
            rw [he]
            exact ⟨hb, Nat.le_refl k⟩

theorem extRight_spec (a b : List Char) (ok : Char → Bool) (i j : Nat) :
    ∀ fuel k, isCommonBlock a b i j k →
      isCommonBlock a b i j (extRight a b ok i j fuel k) ∧
        k ≤ extRight a b ok i j fuel k := by
  intro fuel
  induction fuel with
  | zero =>
    intro k hb
    exact ⟨hb, Nat.le_refl k⟩
  | succ fuel ih =>
    intro k hb
    cases hga : a[i + k]? with
    | none =>
      have he : extRight a b ok i j (fuel + 1) k = k := by
        simp [extRight, hga]
      rw [he]
      exact ⟨hb, Nat.le_refl k⟩
    | some x =>
      cases hgb : b[j + k]? with
      | none =>
        have he : extRight a b ok i j (fuel + 1) k = k := by
          simp [extRight, hga, hgb]
        rw [he]
        exact ⟨hb, Nat.le_refl k⟩
      | some y =>
        by_cases hc : ok y = true ∧ x = y
        · have he : extRight a b ok i j (fuel + 1) k = extRight a b ok i j fuel (k + 1) := by
            simp [extRight, hga, hgb, hc]
          rw [he]
          obtain ⟨hok, hxy⟩ := hc
          subst hxy
          have hblk := block_cons_right hb hga hgb
          have hres := ih (k + 1) hblk
          exact ⟨hres.1, le_trans (Nat.le_succ k) hres.2⟩
        · have he : extRight a b ok i j (fuel + 1) k = k := by
            simp [extRight, hga, hgb, hc]
          rw [he]
          exact ⟨hb, Nat.le_refl k⟩

/-- C1 (amended): for a fragment shorter than difflib's 200-character
autojunk threshold, the block found by `find_longest_match` is a common
contiguous substring occurrence of maximal length, and one merge step
returns the accumulated text up to the block's start in it concatenated with
the fragment from the block's start in the fragment onward.  (For longer
fragments the autojunk heuristic can exclude characters from matching and
the found block need not be a longest common substring — see the
counterexample.) -/
theorem c1_merge_uses_longest_common_block (a b : List Char) (hsmall : b.length < 200) :
    isCommonBlock a b (find_longest_match a b).1 (find_longest_match a b).2.1
      (find_longest_match a b).2.2 ∧
    (∀ i j k, isCommonBlock a b i j k → k ≤ (find_longest_match a b).2.2) ∧
    mergeStep a b =
      a.take (find_longest_match a b).1 ++ b.drop (find_longest_match a b).2.1 := by
  have hdp := flmLoop_spec hsmall a 0 (fun _ => 0) (0, 0, 0) rfl (fun j => rfl)
    ⟨Nat.zero_le _, Nat.zero_le _, rfl⟩
    (fun i2 h2 j => by
      have h0 : i2 = 0 := Nat.le_zero.mp h2
      subst h0
      exact Nat.le_refl 0)
  have hL1 := extLeft_spec a b (fun c => !isbjunk c) _ _ _ hdp.1
  have hR1 := extRight_spec a b (fun c => !isbjunk c) _ _ a.length _ hL1.1
  have hL2 := extLeft_spec a b isbjunk _ _ _ hR1.1
  have hR2 := extRight_spec a b isbjunk _ _ a.length _ hL2.1
  refine ⟨hR2.1, ?_, rfl⟩
  intro i j k hb
  cases k with
  | zero => exact Nat.zero_le _
  | succ m =>
    have h1 := block_runLen a b m i j hb
    have h2 := hdp.2 (i + m + 1) (j + m)
    exact le_trans (le_trans (le_trans (le_trans (le_trans h1 h2) hL1.2) hR1.2) hL2.2)
      hR2.2

/-- Witness for C1 at the specification's own merge example. -/
theorem c1_merge_uses_longest_common_block_witness :
    "world, done.".toList.length < 200 ∧
    isCommonBlock "Hello wor".toList "world, done.".toList 6 0 3 ∧
    mergeStep "Hello wor".toList "world, done.".toList = "Hello world, done.".toList := by
  refine ⟨by decide, ?_, by decide⟩
  have h := (c1_merge_uses_longest_common_block "Hello wor".toList
    "world, done.".toList (by decide)).1
  have he : find_longest_match "Hello wor".toList "world, done.".toList = (6, 0, 3) := by
    decide
  rw [he] at h
  exact h

end BookMaker
